import Mathlib

/-!
# Verification of the dspx classification-and-deletion engine

Shallow embedding, in Lean 4, of the core algorithms of the dspx repository:

* `match_residual_pattern` (src/main.py, lines 207-218) together with the
  glob semantics of Python's `fnmatch.fnmatch` (POSIX `normcase`, i.e. no
  case folding);
* the `DeletionWorker.run` batch deleter (src/main.py, lines 553-584);
* the cancellable `ScanWorker.scan_residual_files` walk and the surrounding
  `ScanWorker.run` signal logic (src/main.py, lines 250-311);
* the duplicate detector `ScanWorker.scan_for_duplicates` and
  `ScanWorker._hash_files_parallel` (src/main.py, lines 389-493);
* `ScanWorker.scan_empty_directories` (src/main.py, lines 496-535);
* the two-phase `AtomicEmptyDirPurger` (src/src/app/core/delete_empty_dirs.py).

Filesystem paths are modelled as lists of components (`Path := List String`);
a filesystem is a finite association list from paths to entry kinds.
Machine-level effects (mkdir/rename/rmdir/fsync/sync) are recorded in an
explicit effect trace so that "no mutation" statements are expressible.
-/

/-- A filesystem path, as its list of components from the filesystem root. -/
abbrev FPath := List String

/-- `str(p)` for an absolute `pathlib.Path`: components joined by `/` with a
leading `/`.  Used only for ordering, mirroring Python's tuple sort keys. -/

def pstr (p : FPath) : String := "/" ++ String.intercalate "/" p

/-- `pathlib.Path.name`: the final component (`""` for the root path),
used by `match_residual_pattern` to match on the base name only. -/

def pname (p : FPath) : String := p.getLastD ""

/-- `p.with_name(p.name + sfx)`: replace the final component by itself with a
suffix appended (the quarantine-rename target of phase 1). -/

def withSuffix (p : FPath) (sfx : String) : FPath :=
  p.dropLast ++ [pname p ++ sfx]

/-! ## Glob matching: Python `fnmatch.fnmatch` on POSIX

`fnmatch.translate` compiles a shell glob to a regex: `*` matches any
sequence, `?` any single character, `[seq]` a character class (with `!`
negation, ranges, and a leading `]` taken literally), and an unterminated
`[` is a literal.  On POSIX `os.path.normcase` is the identity, so no case
folding happens.  We implement the same semantics directly on `List Char`. -/

/-- Scan a bracket-class body for the closing `]`: returns the class content
and the remaining pattern, or `none` when the class is unterminated. -/

def findClose : List Char → Option (List Char × List Char)
  | [] => none
  | c :: rest =>
    if c = ']' then some ([], rest)
    else (findClose rest).map (fun pr => (c :: pr.1, pr.2))

def splitClass (r : List Char) : Option (Bool × List Char × List Char) :=
  if r.head? = some '!' then
    if r.tail.head? = some ']' then
      (findClose r.tail.tail).map (fun pr => (true, ']' :: pr.1, pr.2))
    else
      (findClose r.tail).map (fun pr => (true, pr.1, pr.2))
  else
    if r.head? = some ']' then
      (findClose r.tail).map (fun pr => (false, ']' :: pr.1, pr.2))
    else
      (findClose r).map (fun pr => (false, pr.1, pr.2))

def matchClass (c : Char) : List Char → Bool
  | [] => false
  | a :: '-' :: b :: rest => (decide (a ≤ c) && decide (c ≤ b)) || matchClass c rest
  | a :: rest => (a == c) || matchClass c rest

/-- The glob matcher of `fnmatch.fnmatch` (full-match semantics): pattern
characters against subject characters.  The recursion is driven by a fuel
counter so that the kernel can evaluate it; every step strictly decreases
`pattern.length + subject.length` (for the bracket step this is
`splitClass_len`), so the fuel `pattern.length + subject.length + 1` used by
`fnmatchPy` below is always sufficient and the fuel-0 branch is dead code. -/

def globMatchF : Nat → List Char → List Char → Bool
  | 0, _, _ => false
  | _ + 1, [], s => s.isEmpty
  | fuel + 1, '*' :: ps, [] => globMatchF fuel ps []
  | fuel + 1, '*' :: ps, c :: s =>
    globMatchF fuel ps (c :: s) || globMatchF fuel ('*' :: ps) s
  | fuel + 1, '?' :: ps, _ :: s => globMatchF fuel ps s
  | _ + 1, '?' :: _, [] => false
  | fuel + 1, '[' :: rest, s =>
    match splitClass rest with
    | some (neg, cls, ps) =>
      match s with
      | c :: s' => (matchClass c cls != neg) && globMatchF fuel ps s'
      | [] => false
    | none =>
      match s with
      | c :: s' => ('[' == c) && globMatchF fuel rest s'
      | [] => false
  | fuel + 1, a :: ps, c :: s => (a == c) && globMatchF fuel ps s
  | _ + 1, _ :: _, [] => false

/-- `fnmatch.fnmatch(name, pat)` with POSIX `normcase` (the identity). -/
def fnmatchPy (name pat : String) : Bool :=
  globMatchF (pat.length + name.length + 1) pat.toList name.toList

/-! ## Residual patterns (`src/main.py`)

A pattern row loaded from the CSV: fields `OS`, `File_Pattern`,
`Path_Example`, `Description`, `Safe_To_Delete` and the optional `Enabled`
field (`pattern.get('Enabled', 'Yes')`). -/

structure ResidualPattern where
  os_tag : String
  file_pattern : String
  path_example : String
  description : String
  safe_to_delete : String
  enabledField : Option String
deriving DecidableEq, Repr

/-- `str.lower()`, realised as a per-character map so that the kernel can
evaluate it (the values compared against are all ASCII). -/

def strLower (s : String) : String := String.mk (s.data.map Char.toLower)

/-- `pattern.get('Enabled', 'Yes').lower() in ['yes', 'true', '1']`. -/
def patternEnabled (p : ResidualPattern) : Bool :=
  ["yes", "true", "1"].contains (strLower (p.enabledField.getD "Yes"))

/-- Inner loop of `match_residual_pattern`: first enabled pattern whose glob
matches the (already extracted) base name. -/

def mrpGo (filename : String) : List ResidualPattern → Option ResidualPattern
  | [] => none
  | p :: rest =>
    if patternEnabled p = false then mrpGo filename rest
    else if fnmatchPy filename p.file_pattern then some p
    else mrpGo filename rest

/-- `match_residual_pattern(filepath, patterns)` (src/main.py:207-218):
matches `filepath.name` against the patterns in list order, skipping
disabled ones. -/

def match_residual_pattern (filepath : FPath) (patterns : List ResidualPattern) :
    Option ResidualPattern :=
  mrpGo (pname filepath) patterns

/-- C4: `match_residual_pattern` is a pure function (hence deterministic),
skips patterns with `enabled = false`, and returns exactly the first enabled
pattern in list order whose glob matches the entry's base name — stated as
equality with the declarative form "first match among the enabled patterns,
in their original relative order".  The right-hand side depends on the path
only through `pname filepath`, so only the base name (never the full path)
is consulted, and disabling a pattern (filtering it out) leaves the relative
order of the remaining patterns unchanged. -/

inductive ItemFate where
  /-- `is_file()` true, `unlink()` succeeds. -/
  | fileOk
  /-- `is_file()` true, `unlink()` raises with message `msg`. -/
  | fileErr (msg : String)
  /-- `is_dir()` true, `shutil.rmtree` succeeds (even for non-empty trees). -/
  | dirOk
  /-- `is_dir()` true, `shutil.rmtree` raises with message `msg`. -/
  | dirErr (msg : String)
  /-- neither a file nor a directory: the item is already gone. -/
  | missing
deriving DecidableEq, Repr

structure DeletionResult where
  deleted_count : Nat
  failed_items : List (String × String)
deriving DecidableEq, Repr

/-- One iteration of the deletion loop. -/
def deleteStep (acc : DeletionResult) (it : String × ItemFate) : DeletionResult :=
  match it.2 with
  | .fileOk => { acc with deleted_count := acc.deleted_count + 1 }
  | .fileErr m => { acc with failed_items := acc.failed_items ++ [(it.1, m)] }
  | .dirOk => { acc with deleted_count := acc.deleted_count + 1 }
  | .dirErr m => { acc with failed_items := acc.failed_items ++ [(it.1, m)] }
  | .missing => acc

/-- `DeletionWorker.run`: process every item, accumulating the deleted count
and the per-item failures. -/

def DeletionWorker_run (items : List (String × ItemFate)) : DeletionResult :=
  items.foldl deleteStep ⟨0, []⟩

/-- Did this item's deletion succeed? -/
def fateOk (it : String × ItemFate) : Bool :=
  match it.2 with
  | .fileOk => true
  | .dirOk => true
  | _ => false

/-- The `(path, error)` entry an item contributes to the failure list, if any. -/
def fateFailure (it : String × ItemFate) : Option (String × String) :=
  match it.2 with
  | .fileErr m => some (it.1, m)
  | .dirErr m => some (it.1, m)
  | _ => none

/-- One `os.walk` row: `(root, dirs, files)`. -/
structure WalkRow where
  rpath : FPath
  dirs : List String
  files : List String
deriving DecidableEq, Repr

/-- One configured scan directory: whether `Path(directory).exists()` and,
if so, the rows `os.walk` yields for it. -/

structure ScanDirInput where
  path : FPath
  present : Bool
  rows : List WalkRow
deriving DecidableEq, Repr

/-- Value of `_is_cancelled` at the `tick`-th read. -/
def cancHit (cancelAt : Option Nat) (tick : Nat) : Bool :=
  match cancelAt with
  | some k => decide (k ≤ tick)
  | none => false

/-- The matches contributed by one walk row: directory entries are checked
before file entries, each against `match_residual_pattern` on its full path
(of which only the base name is consulted). -/

def scanRow (patterns : List ResidualPattern) (row : WalkRow) :
    List (FPath × ResidualPattern) :=
  row.dirs.filterMap (fun n =>
    (match_residual_pattern (row.rpath ++ [n]) patterns).map
      (fun pt => (row.rpath ++ [n], pt))) ++
  row.files.filterMap (fun n =>
    (match_residual_pattern (row.rpath ++ [n]) patterns).map
      (fun pt => (row.rpath ++ [n], pt)))

/-- The inner `os.walk` loop of `scan_residual_files`: returns the matches,
the tick counter after the loop, and whether a cancelled read was hit (in
which case the whole scan returns `[]`). -/

def scanRows (patterns : List ResidualPattern) (cancelAt : Option Nat) :
    List WalkRow → Nat → List (FPath × ResidualPattern) × Nat × Bool
  | [], tick => ([], tick, false)
  | row :: rest, tick =>
    if cancHit cancelAt (tick + 1) then ([], tick + 1, true)
    else
      let r := scanRows patterns cancelAt rest (tick + 1)
      ((if r.2.2 then [] else scanRow patterns row ++ r.1), r.2.1, r.2.2)

/-- The outer per-directory loop of `scan_residual_files`. -/
def scanDirs (patterns : List ResidualPattern) (cancelAt : Option Nat) :
    List ScanDirInput → Nat → List (FPath × ResidualPattern) × Nat × Bool
  | [], tick => ([], tick, false)
  | d :: ds, tick =>
    if cancHit cancelAt (tick + 1) then ([], tick + 1, true)
    else if d.present = false then scanDirs patterns cancelAt ds (tick + 1)
    else
      let r := scanRows patterns cancelAt d.rows (tick + 1)
      if r.2.2 then ([], r.2.1, true)
      else
        let r2 := scanDirs patterns cancelAt ds r.2.1
        ((if r2.2.2 then [] else r.1 ++ r2.1), r2.2.1, r2.2.2)

/-- `ScanWorker.scan_residual_files`. -/
def scan_residual_files (dirs : List ScanDirInput)
    (patterns : List ResidualPattern) (cancelAt : Option Nat) :
    List (FPath × ResidualPattern) × Nat × Bool :=
  scanDirs patterns cancelAt dirs 0

/-- The terminal signal `ScanWorker.run` emits for the residual operation. -/
inductive RunSignal where
  | finished (result : Option (List (FPath × ResidualPattern)))
  | errorSig (msg : String)
deriving DecidableEq, Repr

/-- `ScanWorker.run` for `operation == "scan_residual"`: run the scan, then
read `_is_cancelled` once more; emit `finished(result)` if it is clear and
`finished(None)` if it is set. -/

def ScanWorker_run_residual (dirs : List ScanDirInput)
    (patterns : List ResidualPattern) (cancelAt : Option Nat) : RunSignal :=
  let r := scan_residual_files dirs patterns cancelAt
  if r.2.2 || cancHit cancelAt (r.2.1 + 1) then .finished none
  else .finished (some r.1)

/-- A single enabled `.DS_Store` pattern, as loaded from the CSV. -/
def dsStorePattern : ResidualPattern :=
  ⟨"macOS", ".DS_Store", "~/Documents/.DS_Store", "Finder metadata", "Yes",
    some "Yes"⟩

/-- A scan input whose first walk row contains a residual match and whose
second row triggers the third cancellation read. -/

def cexScanDirs : List ScanDirInput :=
  [⟨["r"], true,
    [⟨["r"], ["sub"], [".DS_Store", "a.txt"]⟩,
     ⟨["r", "sub"], [], [".DS_Store"]⟩]⟩]

/-- C7 (counterexample): with cancellation landing before the third flag
read, the first walk row has already accumulated the residual match
`r/.DS_Store`, yet the scan returns `[]` and the worker emits
`finished None` — the partial results (and their summary counts) are
discarded, not returned; the same inputs without cancellation return both
matches, so the discarded partial accumulation was non-empty.  This refutes
the claim that a cancelled run still returns the partial results. -/

structure WalkFile where
  dir : FPath
  name : String
  isFile : Bool
  statSize : Option Nat
  digest : Option String
deriving DecidableEq, Repr

/-- `str(file_path)` — the dictionary key used for `file_info`/`file_hashes`. -/
def fpathStr (f : WalkFile) : String := pstr (f.dir ++ [f.name])

/-- One entry of `files_to_hash`: `(file_path, file_size, filename)` plus the
per-file hashing outcome. -/

structure HashItem where
  path : String
  size : Nat
  name : String
  digest : Option String
deriving DecidableEq, Repr

/-- The enumeration pass (src/main.py:399-425): skip residual matches, skip
non-files, skip files whose `stat` raises; record `(path, size, name)`. -/

def files_to_hash (patterns : List ResidualPattern) (files : List WalkFile) :
    List HashItem :=
  files.filterMap (fun f =>
    if (match_residual_pattern (f.dir ++ [f.name]) patterns).isSome then none
    else if f.isFile = false then none
    else f.statSize.map (fun sz => ⟨fpathStr f, sz, f.name, f.digest⟩))

/-- Python `dict` lookup over an insertion-ordered association list. -/
def lookupAL {α : Type} : List (String × α) → String → Option α
  | [], _ => none
  | (k, v) :: rest, key => if k = key then some v else lookupAL rest key

/-- Python `d[key] = v`: overwrite in place (keeping the key's position) or
append a fresh key at the end. -/

def dictInsert {α : Type} : List (String × α) → String → α → List (String × α)
  | [], key, v => [(key, v)]
  | (k, w) :: rest, key, v =>
    if k = key then (key, v) :: rest else (k, w) :: dictInsert rest key v

/-- `file_hashes.setdefault(h, []).append(path)`: append to the group of an
existing digest, or create a singleton group at the end. -/

def groupAppend : List (String × List String) → String → String →
    List (String × List String)
  | [], key, path => [(key, [path])]
  | (k, ps) :: rest, key, path =>
    if k = key then (k, ps ++ [path]) :: rest
    else (k, ps) :: groupAppend rest key path

/-- The accumulator of `_hash_files_parallel`. -/
structure HashOut where
  file_hashes : List (String × List String)
  file_info : List (String × String × Nat × String)
  total : Nat
deriving DecidableEq, Repr

/-- One iteration of the await loop (src/main.py:471-492): a raised hash
task is logged and skipped; a completed one records
`file_info[path] = (hash, size, name)` and appends `path` to
`file_hashes[hash]`. -/

def hashStep (o : HashOut) (it : HashItem) : HashOut :=
  match it.digest with
  | none => o
  | some h =>
    { file_hashes := groupAppend o.file_hashes h it.path,
      file_info := dictInsert o.file_info it.path (h, it.size, it.name),
      total := o.total + 1 }

def hashLoopFrom (o : HashOut) : List HashItem → HashOut
  | [] => o
  | it :: rest => hashLoopFrom (hashStep o it) rest

/-- `ScanWorker._hash_files_parallel`: tasks are created in enumeration
order and awaited in that same order, so results are folded in enumeration
order regardless of which worker finished first. -/

def hash_files_parallel (items : List HashItem) : HashOut :=
  hashLoopFrom ⟨[], [], 0⟩ items

/-- The result dict of `scan_for_duplicates`: `file_info` and the
`duplicates` groups.  (When nothing was enumerated the Python code returns a
bare `{}`; both maps are empty in that case, which this structure also
represents.) -/

structure DupResult where
  file_info : List (String × String × Nat × String)
  duplicates : List (String × List String)
deriving DecidableEq, Repr

/-- `ScanWorker.scan_for_duplicates` (uncancelled run): enumerate, hash,
keep the digest groups with more than one path. -/

def scan_for_duplicates (files : List WalkFile)
    (patterns : List ResidualPattern) : DupResult :=
  let o := hash_files_parallel (files_to_hash patterns files)
  ⟨o.file_info, o.file_hashes.filter (fun g => decide (1 < g.2.length))⟩

/-- The ordered list of hashed paths sharing digest `h` — the digest's group
in enumeration order. -/

def groupOf (items : List HashItem) (h : String) : List String :=
  items.filterMap (fun it => if it.digest = some h then some it.path else none)

/-! ### The executor abstracted as a completed-futures table

Each hash task's value is a pure function of its file, so the set of
completed futures is a table `path -> digest` containing one entry per
successfully hashed file; worker count and completion order only determine
the ORDER in which this table was filled, never its contents.  `awaitAll`
models `await task` for each task in dispatch order: it reads that task's
own result from the table (a raised task has no entry). -/

/-- The completed-futures table in dispatch order (the canonical order). -/
def canonicalResults (items : List HashItem) : List (String × String) :=
  items.filterMap (fun it => it.digest.map (fun h => (it.path, h)))

/-- Await every dispatched task, reading results from the table. -/
def awaitAll (completed : List (String × String)) (items : List HashItem) :
    List HashItem :=
  items.map (fun it => { it with digest := lookupAL completed it.path })

/-- `_hash_files_parallel` against an executor with `max_workers` workers
whose futures completed in the order listed by `completed`; `max_workers`
(the `ThreadPoolExecutor` size) influences only which completion orders are
possible, never any future's value. -/

def hash_files_parallel_sched (max_workers : Nat)
    (completed : List (String × String)) (items : List HashItem) : HashOut :=
  hash_files_parallel (awaitAll completed items)

/-- `scan_for_duplicates` against an executor with `max_workers` workers and
completion order `completed`. -/

def scan_for_duplicates_sched (files : List WalkFile)
    (patterns : List ResidualPattern) (max_workers : Nat)
    (completed : List (String × String)) : DupResult :=
  let o := hash_files_parallel_sched max_workers completed
    (files_to_hash patterns files)
  ⟨o.file_info, o.file_hashes.filter (fun g => decide (1 < g.2.length))⟩

/-- Two byte-identical text files and one residual file, for the witnesses. -/
def dupFiles : List WalkFile :=
  [⟨["r"], "a.txt", true, some 3, some "h1"⟩,
   ⟨["r", "d"], "b.txt", true, some 3, some "h1"⟩,
   ⟨["r"], ".DS_Store", true, some 1, some "h2"⟩]

def dupCompletedRev : List (String × String) :=
  (canonicalResults (files_to_hash [dsStorePattern] dupFiles)).reverse

inductive EKind where
  | file
  | dir
  | symlink
deriving DecidableEq, Repr

abbrev FS := List (FPath × EKind)

def lookupFS : FS → FPath → Option EKind
  | [], _ => none
  | (q, k) :: rest, p => if q = p then some k else lookupFS rest p

/-- The entry names of directory `p` (its `os.listdir`), in readdir order. -/
def childNames (fs : FS) (p : FPath) : List String :=
  fs.filterMap (fun qk =>
    if qk.1.take p.length = p ∧ qk.1.length = p.length + 1 then
      qk.1.getLast?
    else none)

/-- Remove the node at `p` (the effect of a successful `rmdir`). -/
def removeNode (fs : FS) (p : FPath) : FS :=
  fs.filter (fun qk => decide (qk.1 ≠ p))

/-- `os.rmdir(p)` / `Path.rmdir()`: succeeds only on an existing, empty
directory; any other situation raises `OSError` (`none`). -/

def rmdirFS (fs : FS) (p : FPath) : Option FS :=
  if lookupFS fs p = some EKind.dir ∧ childNames fs p = [] then
    some (removeNode fs p)
  else none

/-- `os.mkdir(p)`: raises `FileExistsError` when the path exists.  (The
purger only calls it directly under its validated root, so the
parent-missing error cannot arise.) -/

def mkdirFS (fs : FS) (p : FPath) : Option FS :=
  if (lookupFS fs p).isSome then none else some (fs ++ [(p, EKind.dir)])

/-- `os.rename(src, dst)`: atomically move the subtree at `src` to `dst`;
raises when `src` is missing or `dst` exists.  (The purger's `dst` carries a
fresh random suffix, so the POSIX empty-directory-overwrite case does not
arise.) -/

def renameFS (fs : FS) (src dst : FPath) : Option FS :=
  if lookupFS fs src = none then none
  else if (lookupFS fs dst).isSome then none
  else some (fs.map (fun qk =>
    (if qk.1.take src.length = src then dst ++ qk.1.drop src.length else qk.1,
     qk.2)))

/-- The machine-level filesystem operations a purge run performs, in order.
Only operations that actually reach the OS are recorded, so a dry run must
produce the empty trace. -/

inductive PEffect where
  | mkdirE (p : FPath)
  | renameE (src dst : FPath)
  | rmdirE (p : FPath)
  | fsyncE (p : FPath)
  | syncE
deriving DecidableEq, Repr

/-- `AtomicEmptyDirPurger.__init__` configuration.  `suffix n` is the hex
suffix `uuid.uuid4().hex[:8]` drawn for the `n`-th quarantine candidate. -/

structure PurgeCfg where
  root : FPath
  dry : Bool
  btrfs : Bool
  sync_enabled : Bool
  lock_name : String
  suffix : Nat → String

def lockDirOf (cfg : PurgeCfg) : FPath := cfg.root ++ [cfg.lock_name]

/-- The mutable state of a purge run: the filesystem, the effect trace, and
the `renamed` / `deleted` report lists; `nsuf` counts consumed suffixes. -/

structure PState where
  fs : FS
  trace : List PEffect
  renamed : List FPath
  deleted : List FPath
  nsuf : Nat
deriving Repr

inductive PurgeErr where
  | lockHeld
  | invalidRoot
deriving DecidableEq, Repr

/-- `acquire_lock`: a no-op in dry-run; otherwise `os.mkdir(lock_dir)`,
turning `FileExistsError` into the fatal `LockHeld` error. -/

def acquire_lock (cfg : PurgeCfg) (st : PState) : Except PurgeErr PState :=
  if cfg.dry then .ok st
  else
    match mkdirFS st.fs (lockDirOf cfg) with
    | none => .error .lockHeld
    | some fs' =>
      .ok { st with fs := fs', trace := st.trace ++ [.mkdirE (lockDirOf cfg)] }

/-- `release_lock`: a no-op in dry-run; otherwise, if the lock directory
exists, `rmdir` it, swallowing every exception. -/

def release_lock (cfg : PurgeCfg) (st : PState) : PState :=
  if cfg.dry then st
  else if (lookupFS st.fs (lockDirOf cfg)).isSome then
    match rmdirFS st.fs (lockDirOf cfg) with
    | some fs' =>
      { st with fs := fs', trace := st.trace ++ [.rmdirE (lockDirOf cfg)] }
    | none => st
  else st

/-- The body of the phase-1 walk at directory `p` (`os.walk(root,
topdown=False)`): the directory listing is captured first (so `dirnames` /
`filenames` are the pre-recursion snapshot), the child directories are
walked, and then `p` itself is processed — skipped when it is the lock
directory or the root; when its snapshot was empty a suffix is drawn, and in
a live run the directory is re-listed immediately before the rename
(`os.listdir`), skipping on any change or error; a rename failure is logged
and skipped.  The fuel bounds the recursion depth (paths strictly lengthen
along a descent, so `fs.length + 1` as used by `phase1_rename_empty` is
never exhausted on a well-formed filesystem). -/

def p1dirnames (fs : FS) (p : FPath) : List String :=
  (childNames fs p).filter
    (fun n => decide (lookupFS fs (p ++ [n]) = some EKind.dir))

def p1filenames (fs : FS) (p : FPath) : List String :=
  (childNames fs p).filter
    (fun n => !decide (lookupFS fs (p ++ [n]) = some EKind.dir))

/-- How the walk processes one yielded row `(p, dirnames, filenames)` after
its subtree has been walked (`st1` is the state after the subtree): skip the
lock directory and the root; on an empty snapshot draw a suffix and, in a
live run, re-list the directory immediately before the rename
(`os.listdir`), skipping on any change or error; a rename failure is logged
and skipped. -/

def phase1Process (cfg : PurgeCfg) (st1 : PState) (p : FPath)
    (dirnames filenames : List String) : PState :=
  if pname p = cfg.lock_name then st1
  else if p = cfg.root then st1
  else if dirnames = [] ∧ filenames = [] then
    if cfg.dry then
      { st1 with
        renamed := st1.renamed ++ [withSuffix p (".purge." ++ cfg.suffix st1.nsuf)]
        nsuf := st1.nsuf + 1 }
    else if lookupFS st1.fs p = some EKind.dir then
      if childNames st1.fs p = [] then
        match renameFS st1.fs p (withSuffix p (".purge." ++ cfg.suffix st1.nsuf)) with
        | some fs' =>
          { st1 with
            fs := fs'
            trace := st1.trace ++
              [.renameE p (withSuffix p (".purge." ++ cfg.suffix st1.nsuf))]
            renamed := st1.renamed ++ [withSuffix p (".purge." ++ cfg.suffix st1.nsuf)]
            nsuf := st1.nsuf + 1 }
        | none => { st1 with nsuf := st1.nsuf + 1 }
      else { st1 with nsuf := st1.nsuf + 1 }
    else { st1 with nsuf := st1.nsuf + 1 }
  else st1

def phase1Visit (cfg : PurgeCfg) : Nat → PState → FPath → PState
  | 0, st, _ => st
  | fuel + 1, st, p =>
    phase1Process cfg
      ((p1dirnames st.fs p).foldl
        (fun s n => phase1Visit cfg fuel s (p ++ [n])) st)
      p (p1dirnames st.fs p) (p1filenames st.fs p)

/-- `phase1_rename_empty`. -/
def phase1_rename_empty (cfg : PurgeCfg) (st : PState) : PState :=
  phase1Visit cfg (st.fs.length + 1) st cfg.root

/-- Python's sort key `(-len(p.parts), str(p))` as a Boolean order
(deepest first, then by path string). -/

def deepFirstLE (a b : FPath) : Bool :=
  decide (b.length < a.length ∨ (a.length = b.length ∧ pstr a ≤ pstr b))

def insSorted (a : FPath) : List FPath → List FPath
  | [] => [a]
  | b :: bs => if deepFirstLE a b then a :: b :: bs else b :: insSorted a bs

/-- `sorted(renamed, key=lambda p: (-len(p.parts), str(p)))`. -/
def sortDeepFirst (l : List FPath) : List FPath :=
  l.foldr insSorted []

/-- One iteration of the phase-2 loop: in dry-run record the intended
removal; otherwise `d.rmdir()`, recording success and skipping (with a log)
any `OSError`. -/

def phase2Step (cfg : PurgeCfg) (st : PState) (d : FPath) : PState :=
  if cfg.dry then { st with deleted := st.deleted ++ [d] }
  else
    match rmdirFS st.fs d with
    | some fs' =>
      { st with
        fs := fs'
        trace := st.trace ++ [.rmdirE d]
        deleted := st.deleted ++ [d] }
    | none => st

/-- `phase2_delete`: process the renamed directories deepest-first. -/
def phase2_delete (cfg : PurgeCfg) (st : PState) : PState :=
  (sortDeepFirst st.renamed).foldl (phase2Step cfg) st

/-- `_sync_path`: open the directory and `fsync` it (best-effort; failures
are logged).  The attempt itself is an OS-level operation, recorded in the
trace. -/

def syncPathE (st : PState) (p : FPath) : PState :=
  { st with trace := st.trace ++ [.fsyncE p] }

/-- The ascending `(len(parts), str(p))` order used for parent syncing. -/
def shallowFirstLE (a b : FPath) : Bool :=
  decide (a.length < b.length ∨ (a.length = b.length ∧ pstr a ≤ pstr b))

def insSortedShallow (a : FPath) : List FPath → List FPath
  | [] => [a]
  | b :: bs => if shallowFirstLE a b then a :: b :: bs else b :: insSortedShallow a bs

def sortShallowFirst (l : List FPath) : List FPath :=
  l.foldr insSortedShallow []

/-- `sync_barriers`: skipped in dry-run or with sync disabled; in Btrfs mode
fsync each quarantined directory then `os.sync()`; otherwise fsync the
(deduplicated, sorted) parents of the renamed directories then `os.sync()`. -/

def sync_barriers (cfg : PurgeCfg) (st : PState) : PState :=
  if cfg.dry ∨ cfg.sync_enabled = false then st
  else if cfg.btrfs then
    let st1 := st.renamed.foldl syncPathE st
    { st1 with trace := st1.trace ++ [.syncE] }
  else
    let parents := (st.renamed.map List.dropLast).dedup
    let st1 := (sortShallowFirst parents).foldl syncPathE st
    { st1 with trace := st1.trace ++ [.syncE] }

/-- `final_sync`: a final `os.sync()` unless dry or disabled. -/
def final_sync (cfg : PurgeCfg) (st : PState) : PState :=
  if cfg.dry ∨ cfg.sync_enabled = false then st
  else { st with trace := st.trace ++ [.syncE] }

def initPState (fs : FS) : PState := ⟨fs, [], [], [], 0⟩

/-- `AtomicEmptyDirPurger.run()`: the constructor validates the root (a
`ValueError` before any lock is taken); then
`try: acquire; phase1; barriers; phase2; final_sync finally: release` —
note the `finally` runs `release_lock` even when `acquire_lock` itself
failed with `LockHeld`.  Returns `(renamed, deleted)` on success together
with the final state; on error, the error together with the final state. -/

def AtomicEmptyDirPurger_run (cfg : PurgeCfg) (fs : FS) :
    Except PurgeErr (List FPath × List FPath) × PState :=
  if lookupFS fs cfg.root = some EKind.dir then
    match acquire_lock cfg (initPState fs) with
    | .error e => (.error e, release_lock cfg (initPState fs))
    | .ok st1 =>
      let st2 := phase1_rename_empty cfg st1
      let st3 := sync_barriers cfg st2
      let st4 := phase2_delete cfg st3
      let st5 := final_sync cfg st4
      let st6 := release_lock cfg st5
      (.ok (st6.renamed, st6.deleted), st6)
  else (.error .invalidRoot, initPState fs)

/-- A live purger configuration (root `/r`, defaults as in `__init__`). -/
def liveCfg : PurgeCfg := ⟨["r"], false, false, true, ".purge.lock", fun _ => "ab12cd34"⟩

/-- A root whose lock directory already exists (a prior run crashed). -/
def lockedFS : FS := [(["r"], EKind.dir), (["r", ".purge.lock"], EKind.dir)]

/-- C1: on a root whose lock directory already exists, the run does fail
fatally with `LockHeld` before performing any rename or delete (the report
lists are empty) — but the claim that the pre-existing lock directory is
never auto-removed is FALSE: `run`'s `finally` clause calls `release_lock`
even when `acquire_lock` itself raised, and `release_lock` removes the
(empty) stale lock directory, so after the failed run the lock is gone and
the sole effect in the trace is precisely that `rmdir`. -/

inductive Phase2Ok : FS → List FPath → List FPath → FS → Prop where
  | nil (fs : FS) : Phase2Ok fs [] [] fs
  | del {fs fs' : FS} {d : FPath} {ds out : List FPath} :
      lookupFS fs d = some EKind.dir → childNames fs d = [] →
      Phase2Ok (removeNode fs d) ds out fs' →
      Phase2Ok fs (d :: ds) (d :: out) fs'
  | keep {fs fs' : FS} {d : FPath} {ds out : List FPath} :
      ¬(lookupFS fs d = some EKind.dir ∧ childNames fs d = []) →
      Phase2Ok fs ds out fs' →
      Phase2Ok fs (d :: ds) out fs'

/-- A small tree with one empty directory, for the dry-run witness. -/
def dryFS : FS :=
  [(["r"], EKind.dir), (["r", "a"], EKind.dir), (["r", "b"], EKind.dir),
   (["r", "b", "x.txt"], EKind.file)]

/-- A fixed suffix supply for the witnesses. -/
def constSfx : Nat → String := fun _ => "ab12cd34"

/-! ## Empty-directory scan (src/main.py:496-535) -/
/-- The `all_dirs` collection pass: bottom-up `os.walk` rows, each
contributing `Path(root)/dirname` for every subdirectory in the row. -/
def walkDirsBU (fs : FS) : Nat → FPath → List FPath
  | 0, _ => []
  | fuel + 1, p =>
    (p1dirnames fs p).foldl
      (fun acc n => acc ++ walkDirsBU fs fuel (p ++ [n])) []
    ++ (p1dirnames fs p).map (fun n => p ++ [n])

/-- `ScanWorker.scan_empty_directories` (uncancelled): for each configured
directory that exists, collect all subdirectories bottom-up, then report
those that are directories with zero entries at check time, never the
configured directory itself. -/

def scan_empty_directories (fs : FS) (dirs : List FPath) : List FPath :=
  dirs.foldl (fun acc d =>
    if (lookupFS fs d).isSome then
      acc ++ (walkDirsBU fs (fs.length + 1) d).foldl (fun a2 q =>
        if q = d then a2
        else if lookupFS fs q = some EKind.dir ∧ childNames fs q = [] then
          a2 ++ [q]
        else a2) []
    else acc) []

/-- `e` is not a rename whose source is `r`. -/
def notRenameFrom (r : FPath) (e : PEffect) : Bool :=
  match e with
  | .renameE s _ => !decide (s = r)
  | _ => true

/-- `DescendsTo fs p q`: starting at directory `p`, the walk reaches `q` by
repeatedly entering child entries of directory kind — exactly the
directories `os.walk(p)` enumerates in our filesystem model. -/
inductive DescendsTo (fs : FS) : FPath → FPath → Prop where
  | refl (p : FPath) : DescendsTo fs p p
  | step {p q : FPath} {n : String} :
      lookupFS fs (p ++ [n]) = some EKind.dir →
      DescendsTo fs (p ++ [n]) q →
      DescendsTo fs p q

/-! ## Lemmas and claim theorems -/

theorem findClose_len : ∀ {l : List Char} {cs a : List Char},
    findClose l = some (cs, a) → a.length < l.length := by
  intro l
  induction l with
  | nil => intro cs a h; simp [findClose] at h
  | cons c rest ih =>
    intro cs a h
    by_cases hc : c = ']'
    · rw [findClose, if_pos hc] at h
      cases h
      simp
    · rw [findClose, if_neg hc] at h
      match hrest : findClose rest with
      | none => rw [hrest] at h; simp at h
      | some (cs', a') =>
        rw [hrest] at h
        simp only [Option.map_some'] at h
        cases h
        exact Nat.lt_trans (ih hrest) (Nat.lt_succ_self _)

/-- Parse the body of a `[` class following `fnmatch.translate`: an optional
leading `!` negates; a `]` immediately after (or after the `!`) belongs to
the class content; the content then runs until the next `]`.  Returns
`(negated, class content, remaining pattern)`, or `none` for a literal `[`. -/

theorem splitClass_len {r : List Char} {n : Bool} {cs ps : List Char}
    (h : splitClass r = some (n, cs, ps)) : ps.length < r.length := by
  unfold splitClass at h
  have htail : r.tail.length ≤ r.length := by
    rw [List.length_tail]; omega
  have htail2 : r.tail.tail.length ≤ r.length := by
    rw [List.length_tail, List.length_tail]; omega
  split at h
  · split at h
    · match hfc : findClose r.tail.tail with
      | none => rw [hfc] at h; simp at h
      | some (cs', a') =>
        rw [hfc] at h; simp only [Option.map_some'] at h; cases h
        exact Nat.lt_of_lt_of_le (findClose_len hfc) htail2
    · match hfc : findClose r.tail with
      | none => rw [hfc] at h; simp at h
      | some (cs', a') =>
        rw [hfc] at h; simp only [Option.map_some'] at h; cases h
        exact Nat.lt_of_lt_of_le (findClose_len hfc) htail
  · split at h
    · match hfc : findClose r.tail with
      | none => rw [hfc] at h; simp at h
      | some (cs', a') =>
        rw [hfc] at h; simp only [Option.map_some'] at h; cases h
        exact Nat.lt_of_lt_of_le (findClose_len hfc) htail
    · match hfc : findClose r with
      | none => rw [hfc] at h; simp at h
      | some (cs', a') =>
        rw [hfc] at h; simp only [Option.map_some'] at h; cases h
        exact findClose_len hfc

/-- Membership of a character in a bracket-class body: `a-b` denotes a
codepoint range (an inverted range matches nothing, as in `re`), any other
character is a literal. -/

theorem match_residual_pattern_first_enabled (filepath : FPath)
    (patterns : List ResidualPattern) :
    match_residual_pattern filepath patterns =
      (patterns.filter patternEnabled).find?
        (fun p => fnmatchPy (pname filepath) p.file_pattern) := by
  unfold match_residual_pattern
  induction patterns with
  | nil => rfl
  | cons p rest ih =>
    by_cases hen : patternEnabled p = true
    · rw [show (p :: rest).filter patternEnabled = p :: rest.filter patternEnabled by
        simp [List.filter_cons, hen]]
      by_cases hm : fnmatchPy (pname filepath) p.file_pattern = true
      · simp [mrpGo, hen, hm, List.find?]
      · simp [mrpGo, hen, hm, List.find?, ih]
    · have hen' : patternEnabled p = false := by simpa using hen
      rw [show (p :: rest).filter patternEnabled = rest.filter patternEnabled by
        simp [List.filter_cons, hen']]
      simp [mrpGo, hen', ih]

/-! ## Batch deletion: `DeletionWorker.run` (src/main.py:553-584)

For each item the worker evaluates `item_path.is_file()` /
`item_path.is_dir()` and calls `unlink()` resp. `shutil.rmtree()` inside a
per-item `try`.  `ItemFate` abstracts the situations observable per item:
a regular file whose `unlink` succeeds or raises, a directory whose
`rmtree` succeeds or raises (note `rmtree` removes non-empty directories
recursively, so "non-empty" is not a failure for directories), and a path
that is neither a file nor a directory (already gone), for which neither
branch runs.  The GUI cancellation flag is not modelled (no cancellation is
requested). -/

theorem deleteLoop_closed_form (items : List (String × ItemFate))
    (acc : DeletionResult) :
    items.foldl deleteStep acc =
      ⟨acc.deleted_count + (items.filter fateOk).length,
       acc.failed_items ++ items.filterMap fateFailure⟩ := by
  induction items generalizing acc with
  | nil => simp
  | cons it rest ih =>
    match hfate : it.2 with
    | .fileOk =>
      simp [List.foldl_cons, deleteStep, hfate, ih, List.filter_cons,
        List.filterMap_cons, fateOk, fateFailure]
      omega
    | .fileErr m =>
      simp [List.foldl_cons, deleteStep, hfate, ih, List.filter_cons,
        List.filterMap_cons, fateOk, fateFailure]
    | .dirOk =>
      simp [List.foldl_cons, deleteStep, hfate, ih, List.filter_cons,
        List.filterMap_cons, fateOk, fateFailure]
      omega
    | .dirErr m =>
      simp [List.foldl_cons, deleteStep, hfate, ih, List.filter_cons,
        List.filterMap_cons, fateOk, fateFailure]
    | .missing =>
      simp [List.foldl_cons, deleteStep, hfate, ih, List.filter_cons,
        List.filterMap_cons, fateOk, fateFailure]

/-- C8 (counterexample): an item that is already gone (neither file nor
directory) produces NO `(path, error)` entry in the failure list — the loop
falls through both branches silently — refuting the claim that an
"already gone" item's failure is captured in the per-item failure list. -/

theorem missing_item_no_failure_entry_cex :
    DeletionWorker_run [("/data/gone.txt", ItemFate.missing)] =
      ⟨0, []⟩ := by
  rfl

/-- C8 (amended): each item is processed independently — an exception raised
while deleting one item (e.g. permission denied) is captured as a
`(path, error)` entry and does not stop processing of the remaining items;
the result always carries the total deleted count together with the failure
list.  However, an already-gone item (neither file nor directory) is
silently skipped with no failure entry, and directory items are removed
recursively by `shutil.rmtree`, so a non-empty directory is not a failure.
Formally, the run is the closed form in which every item contributes
exactly its own success or failure, independent of all other items. -/

theorem deletion_run_closed_form (items : List (String × ItemFate)) :
    DeletionWorker_run items =
      ⟨(items.filter fateOk).length, items.filterMap fateFailure⟩ := by
  unfold DeletionWorker_run
  rw [deleteLoop_closed_form]
  simp

/-! ## Residual scan with cooperative cancellation (src/main.py:250-311)

`ScanWorker.scan_residual_files` walks each configured directory with
`os.walk`, matching every directory and file name; the `_is_cancelled` flag
(set asynchronously by the GUI thread) is read at the head of the
per-directory loop and at the head of every `os.walk` row, and on a `true`
read the scan returns `[]` immediately.  `ScanWorker.run` then reads the
flag once more: if set it emits `finished(None)`, otherwise
`finished(result)`; exceptions (none in this pure model) would emit `error`.

The flag reads are modelled by numbering them 1, 2, 3, … in execution order;
`cancelAt = some k` means the asynchronous cancellation lands before the
`k`-th read (so reads `k, k+1, …` see `true`); `none` means cancellation is
never requested. -/

/-- A scan that is never cancelled reports no cancellation. -/
theorem scanRows_none_flag (patterns : List ResidualPattern) :
    ∀ (rows : List WalkRow) (t : Nat),
      (scanRows patterns none rows t).2.2 = false := by
  intro rows
  induction rows with
  | nil => intro t; rfl
  | cons row rest ih =>
    intro t
    simp only [scanRows, cancHit]
    simpa using ih (t + 1)

theorem scanDirs_none_flag (patterns : List ResidualPattern) :
    ∀ (ds : List ScanDirInput) (t : Nat),
      (scanDirs patterns none ds t).2.2 = false := by
  intro ds
  induction ds with
  | nil => intro t; rfl
  | cons d rest ih =>
    intro t
    simp only [scanDirs, cancHit]
    by_cases hp : d.present = false
    · simpa [hp] using ih (t + 1)
    · simp only [hp]
      by_cases hr : (scanRows patterns none d.rows (t + 1)).2.2 = true
      · have := scanRows_none_flag patterns d.rows (t + 1)
        simp [this] at hr
      · simp only [Bool.not_eq_true] at hr
        simp [hr, ih]

/-- If the cancelled reads never fired during the rows loop, the loop
behaves exactly as an uncancelled one. -/

theorem scanRows_uncancelled (patterns : List ResidualPattern) (k : Nat) :
    ∀ (rows : List WalkRow) (t : Nat),
      (scanRows patterns (some k) rows t).2.2 = false →
      scanRows patterns (some k) rows t = scanRows patterns none rows t := by
  intro rows
  induction rows with
  | nil => intro t _; rfl
  | cons row rest ih =>
    intro t hflag
    by_cases hc : cancHit (some k) (t + 1) = true
    · rw [scanRows, if_pos hc] at hflag
      simp at hflag
    · rw [scanRows, if_neg hc] at hflag
      have hflag' : (scanRows patterns (some k) rest (t + 1)).2.2 = false :=
        hflag
      have heq := ih (t + 1) hflag'
      rw [scanRows, if_neg hc, heq]
      rw [show scanRows patterns none (row :: rest) t =
            (let r := scanRows patterns none rest (t + 1)
             ((if r.2.2 then [] else scanRow patterns row ++ r.1), r.2.1, r.2.2))
          from by rw [scanRows]; simp [cancHit]]

/-- If the cancelled reads never fired during the directory loop, the scan
behaves exactly as an uncancelled one. -/

theorem scanDirs_uncancelled (patterns : List ResidualPattern) (k : Nat) :
    ∀ (ds : List ScanDirInput) (t : Nat),
      (scanDirs patterns (some k) ds t).2.2 = false →
      scanDirs patterns (some k) ds t = scanDirs patterns none ds t := by
  intro ds
  induction ds with
  | nil => intro t _; rfl
  | cons d rest ih =>
    intro t hflag
    by_cases hc : cancHit (some k) (t + 1) = true
    · rw [scanDirs, if_pos hc] at hflag
      simp at hflag
    · rw [scanDirs, if_neg hc] at hflag
      rw [scanDirs, if_neg hc]
      rw [show scanDirs patterns none (d :: rest) t =
            (if d.present = false then scanDirs patterns none rest (t + 1)
             else
              let r := scanRows patterns none d.rows (t + 1)
              if r.2.2 then ([], r.2.1, true)
              else
                let r2 := scanDirs patterns none rest r.2.1
                ((if r2.2.2 then [] else r.1 ++ r2.1), r2.2.1, r2.2.2))
          from by rw [scanDirs]; simp [cancHit]]
      by_cases hp : d.present = false
      · rw [if_pos hp] at hflag
        rw [if_pos hp, if_pos hp]
        exact ih (t + 1) hflag
      · rw [if_neg hp] at hflag
        rw [if_neg hp, if_neg hp]
        by_cases hr : (scanRows patterns (some k) d.rows (t + 1)).2.2 = true
        · simp [hr] at hflag
        · simp only [Bool.not_eq_true] at hr
          have hrows := scanRows_uncancelled patterns k d.rows (t + 1) hr
          simp only [hr, Bool.false_eq_true, if_false] at hflag
          have hrec := ih _ hflag
          rw [hrows] at hrec
          rw [hrows]
          simp only [hrec]

/-- C7 (amended): cancellation is a graceful stop and never an error signal
to the caller — `ScanWorker.run` always emits `finished` — but the partial
results accumulated before the cancellation point are discarded rather than
returned: a run whose cancellation lands emits `finished None` (and
`scan_residual_files` has returned `[]`), while a run whose cancellation
never lands behaves exactly like an uncancelled run.  Formally: the emitted
signal is always `finished`, and it is either `finished none` or identical
to the uncancelled run's signal. -/

theorem cancelled_scan_graceful (dirs : List ScanDirInput)
    (patterns : List ResidualPattern) (cancelAt : Option Nat) :
    (∃ r, ScanWorker_run_residual dirs patterns cancelAt =
      RunSignal.finished r) ∧
    (ScanWorker_run_residual dirs patterns cancelAt = RunSignal.finished none ∨
     ScanWorker_run_residual dirs patterns cancelAt =
       ScanWorker_run_residual dirs patterns none) := by
  constructor
  · unfold ScanWorker_run_residual
    by_cases hb : ((scan_residual_files dirs patterns cancelAt).2.2 ||
        cancHit cancelAt ((scan_residual_files dirs patterns cancelAt).2.1 + 1))
        = true
    · exact ⟨none, by simp only [hb, if_true]⟩
    · refine ⟨some (scan_residual_files dirs patterns cancelAt).1, ?_⟩
      simp only [Bool.not_eq_true] at hb
      simp only [hb, Bool.false_eq_true, if_false]
  · match hca : cancelAt with
    | none => exact Or.inr rfl
    | some k =>
      by_cases hb : ((scan_residual_files dirs patterns (some k)).2.2 ||
          cancHit (some k) ((scan_residual_files dirs patterns (some k)).2.1 + 1))
          = true
      · exact Or.inl (by unfold ScanWorker_run_residual; simp only [hb, if_true])
      · refine Or.inr ?_
        simp only [Bool.not_eq_true, Bool.or_eq_false_iff] at hb
        obtain ⟨hc1, hc2⟩ := hb
        have heq := scanDirs_uncancelled patterns k dirs 0 hc1
        unfold ScanWorker_run_residual scan_residual_files
        unfold scan_residual_files at heq hc1 hc2
        rw [heq] at hc2
        rw [heq]
        have hnf := scanDirs_none_flag patterns dirs 0
        simp only [cancHit, decide_eq_false_iff_not] at hc2
        simp [hnf, cancHit, hc2]

theorem cancelled_scan_discards_partial_cex :
    (scan_residual_files cexScanDirs [dsStorePattern] (some 3)).1 = [] ∧
    ScanWorker_run_residual cexScanDirs [dsStorePattern] (some 3) =
      RunSignal.finished none ∧
    (scan_residual_files cexScanDirs [dsStorePattern] none).1 =
      [(["r", ".DS_Store"], dsStorePattern),
       (["r", "sub", ".DS_Store"], dsStorePattern)] := by
  refine ⟨rfl, rfl, ?_⟩
  rfl

/-! ## Duplicate detection (src/main.py:389-493)

`scan_for_duplicates` first enumerates candidate files from `os.walk`
(skipping residual matches, non-regular files and files whose `stat` fails),
then hashes them on a `ThreadPoolExecutor`, then groups paths by digest and
keeps the groups of size ≥ 2.

A `WalkFile` is one file yielded by the walk: its directory path and name
(the full path is matched by `match_residual_pattern`, which only consults
the base name), the outcome of `is_file()`, the outcome of `stat().st_size`
(`none` = raised), and the outcome of hashing it (`none` = the hash task
raised, e.g. the file vanished; `compute_hash_sync` is a pure function of
the file's bytes, so this outcome is a per-file constant independent of
scheduling). -/

theorem lookupAL_none_iff {α : Type} (m : List (String × α)) (k : String) :
    lookupAL m k = none ↔ k ∉ m.map Prod.fst := by
  induction m with
  | nil => simp [lookupAL]
  | cons kv rest ih =>
    match kv with
    | (k', v) =>
      by_cases hk : k' = k
      · simp [lookupAL, hk]
      · simp [lookupAL, hk, ih, Ne.symm hk]

theorem lookupAL_mem {α : Type} {m : List (String × α)} {k : String} {v : α}
    (h : lookupAL m k = some v) : (k, v) ∈ m := by
  induction m with
  | nil => simp [lookupAL] at h
  | cons kv rest ih =>
    match kv with
    | (k', w) =>
      by_cases hk : k' = k
      · rw [lookupAL, if_pos hk] at h
        cases h
        simp [hk]
      · rw [lookupAL, if_neg hk] at h
        simp [ih h]

theorem mem_lookupAL {α : Type} {m : List (String × α)} {k : String} {v : α}
    (hnd : (m.map Prod.fst).Nodup) (h : (k, v) ∈ m) : lookupAL m k = some v := by
  induction m with
  | nil => simp at h
  | cons kv rest ih =>
    match kv with
    | (k', w) =>
      simp only [List.map_cons, List.nodup_cons] at hnd
      rcases List.mem_cons.mp h with heq | hmem
      · cases heq
        simp [lookupAL]
      · have hk : k' ≠ k := by
          intro hcontra
          exact hnd.1 (hcontra ▸ (by simpa using List.mem_map_of_mem Prod.fst hmem))
        rw [lookupAL, if_neg hk]
        exact ih hnd.2 hmem

theorem lookupAL_perm {α : Type} {m₁ m₂ : List (String × α)}
    (hnd : (m₁.map Prod.fst).Nodup) (hp : m₁.Perm m₂) (k : String) :
    lookupAL m₁ k = lookupAL m₂ k := by
  have hnd₂ : (m₂.map Prod.fst).Nodup := ((hp.map Prod.fst).nodup_iff).mp hnd
  match hl : lookupAL m₁ k with
  | some v => exact (mem_lookupAL hnd₂ (hp.mem_iff.mp (lookupAL_mem hl))).symm
  | none =>
    have := (lookupAL_none_iff m₁ k).mp hl
    rw [Eq.comm, lookupAL_none_iff]
    intro hc
    exact this (((hp.map Prod.fst).mem_iff).mpr hc)

theorem mem_keys_groupAppend {m : List (String × List String)} {k path x : String}
    (h : x ∈ (groupAppend m k path).map Prod.fst) :
    x ∈ m.map Prod.fst ∨ x = k := by
  induction m with
  | nil => simp [groupAppend] at h; simp [h]
  | cons kv rest ih =>
    match kv with
    | (k', ps) =>
      by_cases hk : k' = k
      · rw [groupAppend, if_pos hk] at h
        simp only [List.map_cons] at h ⊢
        rcases List.mem_cons.mp h with heq | hmem
        · exact Or.inl (List.mem_cons.mpr (Or.inl heq))
        · exact Or.inl (List.mem_cons.mpr (Or.inr hmem))
      · rw [groupAppend, if_neg hk] at h
        simp only [List.map_cons] at h ⊢
        rcases List.mem_cons.mp h with heq | hmem
        · exact Or.inl (List.mem_cons.mpr (Or.inl heq))
        · rcases ih hmem with h1 | h2
          · exact Or.inl (List.mem_cons.mpr (Or.inr h1))
          · exact Or.inr h2

theorem groupAppend_keys_nodup {m : List (String × List String)}
    {k path : String} (hnd : (m.map Prod.fst).Nodup) :
    ((groupAppend m k path).map Prod.fst).Nodup := by
  induction m with
  | nil => simp [groupAppend]
  | cons kv rest ih =>
    match kv with
    | (k', ps) =>
      simp only [List.map_cons, List.nodup_cons] at hnd
      by_cases hk : k' = k
      · rw [groupAppend, if_pos hk]
        simp only [List.map_cons, List.nodup_cons]
        exact hnd
      · rw [groupAppend, if_neg hk]
        simp only [List.map_cons, List.nodup_cons]
        refine ⟨fun hc => ?_, ih hnd.2⟩
        rcases mem_keys_groupAppend hc with h1 | h2
        · exact hnd.1 h1
        · exact hk h2

theorem lookupAL_groupAppend_self (m : List (String × List String))
    (k path : String) :
    lookupAL (groupAppend m k path) k =
      some ((lookupAL m k).getD [] ++ [path]) := by
  induction m with
  | nil => simp [groupAppend, lookupAL]
  | cons kv rest ih =>
    match kv with
    | (k', ps) =>
      by_cases hk : k' = k
      · simp [groupAppend, lookupAL, hk]
      · simp [groupAppend, lookupAL, hk, ih]

theorem lookupAL_groupAppend_ne (m : List (String × List String))
    {k k' : String} (path : String) (h : k' ≠ k) :
    lookupAL (groupAppend m k path) k' = lookupAL m k' := by
  have h' : k ≠ k' := Ne.symm h
  induction m with
  | nil => simp [groupAppend, lookupAL, h']
  | cons kv rest ih =>
    match kv with
    | (k'', ps) =>
      by_cases hk : k'' = k
      · have hne : k'' ≠ k' := by rw [hk]; exact h'
        simp [groupAppend, lookupAL, hk, hne, h']
      · by_cases hx : k'' = k'
        · simp [groupAppend, lookupAL, hk, hx, h]
        · simp [groupAppend, lookupAL, hk, hx, ih]

theorem lookupAL_dictInsert_self {α : Type} (m : List (String × α))
    (k : String) (v : α) : lookupAL (dictInsert m k v) k = some v := by
  induction m with
  | nil => simp [dictInsert, lookupAL]
  | cons kv rest ih =>
    match kv with
    | (k', w) =>
      by_cases hk : k' = k
      · simp [dictInsert, lookupAL, hk]
      · simp [dictInsert, lookupAL, hk, ih]

theorem lookupAL_dictInsert_ne {α : Type} (m : List (String × α))
    {k k' : String} (v : α) (h : k' ≠ k) :
    lookupAL (dictInsert m k v) k' = lookupAL m k' := by
  have h' : k ≠ k' := Ne.symm h
  induction m with
  | nil => simp [dictInsert, lookupAL, h']
  | cons kv rest ih =>
    match kv with
    | (k'', w) =>
      by_cases hk : k'' = k
      · have hne : k'' ≠ k' := by rw [hk]; exact h'
        simp [dictInsert, lookupAL, hk, hne, h']
      · by_cases hx : k'' = k'
        · simp [dictInsert, lookupAL, hk, hx, h]
        · simp [dictInsert, lookupAL, hk, hx, ih]

theorem groupOf_cons (it : HashItem) (rest : List HashItem) (h : String) :
    groupOf (it :: rest) h =
      if it.digest = some h then it.path :: groupOf rest h
      else groupOf rest h := by
  by_cases hd : it.digest = some h
  · simp [groupOf, List.filterMap_cons, hd]
  · simp [groupOf, List.filterMap_cons, hd]

theorem hashLoop_fh_lookup (h : String) :
    ∀ (items : List HashItem) (o : HashOut),
      lookupAL (hashLoopFrom o items).file_hashes h =
        (match lookupAL o.file_hashes h, groupOf items h with
         | some ps, g => some (ps ++ g)
         | none, [] => none
         | none, g => some g) := by
  intro items
  induction items with
  | nil =>
    intro o
    match hlo : lookupAL o.file_hashes h with
    | some ps => simp [hashLoopFrom, groupOf, hlo]
    | none => simp [hashLoopFrom, groupOf, hlo]
  | cons it rest ih =>
    intro o
    rw [hashLoopFrom]
    match hd : it.digest with
    | none =>
      rw [ih, groupOf_cons]
      simp [hashStep, hd]
    | some hd' =>
      by_cases hh : hd' = h
      · subst hh
        rw [ih, groupOf_cons, if_pos hd]
        simp only [hashStep, hd]
        rw [lookupAL_groupAppend_self o.file_hashes hd' it.path]
        match hlo : lookupAL o.file_hashes hd' with
        | some ps => simp [hlo]
        | none => simp [hlo]
      · rw [ih]
        simp only [hashStep, hd]
        rw [lookupAL_groupAppend_ne o.file_hashes it.path
          (fun hc : h = hd' => hh hc.symm)]
        rw [groupOf_cons, if_neg (by rw [hd]; exact fun hc => hh (by injection hc))]

theorem hashLoop_fh_keys_nodup :
    ∀ (items : List HashItem) (o : HashOut),
      (o.file_hashes.map Prod.fst).Nodup →
      ((hashLoopFrom o items).file_hashes.map Prod.fst).Nodup := by
  intro items
  induction items with
  | nil => intro o hnd; exact hnd
  | cons it rest ih =>
    intro o hnd
    rw [hashLoopFrom]
    match hd : it.digest with
    | none =>
      apply ih
      simpa [hashStep, hd] using hnd
    | some hd' =>
      apply ih
      simp only [hashStep, hd]
      exact groupAppend_keys_nodup hnd

theorem hashLoop_fi_not_mem :
    ∀ (items : List HashItem) (o : HashOut) (p : String),
      p ∉ items.map HashItem.path →
      lookupAL (hashLoopFrom o items).file_info p = lookupAL o.file_info p := by
  intro items
  induction items with
  | nil => intro o p _; rfl
  | cons it rest ih =>
    intro o p hp
    simp only [List.map_cons, List.mem_cons, not_or] at hp
    rw [hashLoopFrom]
    rw [ih (hashStep o it) p hp.2]
    match hd : it.digest with
    | none => simp [hashStep, hd]
    | some hd' =>
      simp only [hashStep, hd]
      exact lookupAL_dictInsert_ne o.file_info _ hp.1

theorem hashLoop_fi_mem :
    ∀ (items : List HashItem) (o : HashOut) (it : HashItem) (h : String),
      (items.map HashItem.path).Nodup →
      it ∈ items → it.digest = some h →
      lookupAL (hashLoopFrom o items).file_info it.path =
        some (h, it.size, it.name) := by
  intro items
  induction items with
  | nil => intro o it h _ hmem; simp at hmem
  | cons hd0 rest ih =>
    intro o it h hnd hmem hdig
    simp only [List.map_cons, List.nodup_cons] at hnd
    rcases List.mem_cons.mp hmem with heq | hmem'
    · subst heq
      rw [hashLoopFrom]
      rw [hashLoop_fi_not_mem rest (hashStep o it) it.path hnd.1]
      simp only [hashStep, hdig]
      exact lookupAL_dictInsert_self o.file_info it.path (h, it.size, it.name)
    · rw [hashLoopFrom]
      exact ih (hashStep o hd0) it h hnd.2 hmem' hdig

theorem groupOf_subset {items : List HashItem} {h q : String}
    (hq : q ∈ groupOf items h) : q ∈ items.map HashItem.path := by
  induction items with
  | nil => simp [groupOf] at hq
  | cons it rest ih =>
    rw [groupOf_cons] at hq
    by_cases hd : it.digest = some h
    · rw [if_pos hd] at hq
      rcases List.mem_cons.mp hq with heq | hmem
      · simp [heq]
      · simp [ih hmem]
    · rw [if_neg hd] at hq
      simp [ih hq]

theorem groupOf_head (items : List HashItem) (h : String) :
    (groupOf items h).head? =
      (items.find? (fun it => decide (it.digest = some h))).map
        HashItem.path := by
  induction items with
  | nil => simp [groupOf]
  | cons it rest ih =>
    rw [groupOf_cons]
    by_cases hd : it.digest = some h
    · simp [hd, List.find?]
    · simp [hd, List.find?, ih]

theorem files_to_hash_paths_sublist (patterns : List ResidualPattern)
    (files : List WalkFile) :
    ((files_to_hash patterns files).map HashItem.path).Sublist
      (files.map fpathStr) := by
  induction files with
  | nil => simp [files_to_hash]
  | cons f rest ih =>
    rw [files_to_hash, List.filterMap_cons]
    by_cases hres : (match_residual_pattern (f.dir ++ [f.name]) patterns).isSome
    · simp only [hres, if_true]
      exact List.Sublist.cons _ ih
    · simp only [hres, if_false]
      by_cases hf : f.isFile = false
      · simp only [hf, if_true]
        exact List.Sublist.cons _ ih
      · simp only [hf, if_false]
        match hs : f.statSize with
        | none => simpa using List.Sublist.cons _ ih
        | some sz =>
          simp only [Option.map_some']
          simpa using List.Sublist.cons₂ (fpathStr f) ih

theorem files_to_hash_mem {patterns : List ResidualPattern}
    {files : List WalkFile} {it : HashItem}
    (h : it ∈ files_to_hash patterns files) :
    ∃ f, f ∈ files ∧
      match_residual_pattern (f.dir ++ [f.name]) patterns = none ∧
      it.path = fpathStr f := by
  induction files with
  | nil => simp [files_to_hash] at h
  | cons f rest ih =>
    rw [files_to_hash, List.filterMap_cons] at h
    by_cases hres : (match_residual_pattern (f.dir ++ [f.name]) patterns).isSome
    · simp only [hres, if_true] at h
      obtain ⟨g, hg, h1, h2⟩ := ih h
      exact ⟨g, List.mem_cons.mpr (Or.inr hg), h1, h2⟩
    · simp only [hres, if_false] at h
      by_cases hf : f.isFile = false
      · simp only [hf, if_true] at h
        obtain ⟨g, hg, h1, h2⟩ := ih h
        exact ⟨g, List.mem_cons.mpr (Or.inr hg), h1, h2⟩
      · simp only [hf, if_false] at h
        match hs : f.statSize with
        | none =>
          rw [hs] at h
          simp only [Option.map_none'] at h
          obtain ⟨g, hg, h1, h2⟩ := ih h
          exact ⟨g, List.mem_cons.mpr (Or.inr hg), h1, h2⟩
        | some sz =>
          rw [hs] at h
          simp only [Option.map_some'] at h
          rcases List.mem_cons.mp h with heq | hmem
          · refine ⟨f, List.mem_cons.mpr (Or.inl rfl),
              Option.not_isSome_iff_eq_none.mp hres, ?_⟩
            rw [heq]
          · obtain ⟨g, hg, h1, h2⟩ := ih hmem
            exact ⟨g, List.mem_cons.mpr (Or.inr hg), h1, h2⟩

theorem fh_keys_nodup (items : List HashItem) :
    ((hash_files_parallel items).file_hashes.map Prod.fst).Nodup :=
  hashLoop_fh_keys_nodup items ⟨[], [], 0⟩ (by simp)

theorem dups_lookup (items : List HashItem) (h : String) :
    lookupAL (hash_files_parallel items).file_hashes h =
      if groupOf items h = [] then none else some (groupOf items h) := by
  unfold hash_files_parallel
  rw [hashLoop_fh_lookup]
  match hg : groupOf items h with
  | [] => simp [lookupAL]
  | q :: g => simp [lookupAL]

theorem dups_mem_iff (items : List HashItem) (h : String) (ps : List String) :
    ((h, ps) ∈ (hash_files_parallel items).file_hashes.filter
        (fun g => decide (1 < g.2.length))) ↔
      (ps = groupOf items h ∧ 2 ≤ (groupOf items h).length) := by
  rw [List.mem_filter]
  constructor
  · rintro ⟨hmem, hlen⟩
    have hl := mem_lookupAL (fh_keys_nodup items) hmem
    rw [dups_lookup] at hl
    by_cases hg : groupOf items h = []
    · rw [if_pos hg] at hl
      simp at hl
    · rw [if_neg hg] at hl
      injection hl with hl
      subst hl
      simp only [decide_eq_true_eq] at hlen
      exact ⟨rfl, by omega⟩
  · rintro ⟨hps, hlen⟩
    subst hps
    refine ⟨lookupAL_mem ?_, by simp; omega⟩
    rw [dups_lookup, if_neg (fun hc => by rw [hc] at hlen; simp at hlen)]

theorem canonical_keys_sublist (items : List HashItem) :
    ((canonicalResults items).map Prod.fst).Sublist
      (items.map HashItem.path) := by
  induction items with
  | nil => simp [canonicalResults]
  | cons it rest ih =>
    rw [canonicalResults, List.filterMap_cons]
    match hd : it.digest with
    | none => simpa using List.Sublist.cons _ ih
    | some h =>
      simp only [Option.map_some']
      simpa [canonicalResults] using List.Sublist.cons₂ it.path ih

theorem canonical_lookup :
    ∀ (items : List HashItem), (items.map HashItem.path).Nodup →
      ∀ it ∈ items, lookupAL (canonicalResults items) it.path = it.digest := by
  intro items
  induction items with
  | nil => intro _ it hmem; simp at hmem
  | cons f rest ih =>
    intro hnd it hmem
    simp only [List.map_cons, List.nodup_cons] at hnd
    rcases List.mem_cons.mp hmem with heq | hmem'
    · subst heq
      match hd : it.digest with
      | some h =>
        rw [canonicalResults, List.filterMap_cons, hd]
        simp [lookupAL]
      | none =>
        rw [canonicalResults, List.filterMap_cons, hd]
        simp only [Option.map_none']
        rw [lookupAL_none_iff]
        intro hc
        exact hnd.1 ((canonical_keys_sublist rest).subset hc)
    · have hne : f.path ≠ it.path := by
        intro hc
        exact hnd.1 (hc ▸ List.mem_map_of_mem HashItem.path hmem')
      match hd : f.digest with
      | some h =>
        rw [canonicalResults, List.filterMap_cons, hd]
        simp only [Option.map_some']
        rw [lookupAL, if_neg hne]
        exact ih hnd.2 it hmem'
      | none =>
        rw [canonicalResults, List.filterMap_cons, hd]
        simp only [Option.map_none']
        exact ih hnd.2 it hmem'

theorem awaitAll_eq_of_perm {items : List HashItem}
    {completed : List (String × String)}
    (hnd : (items.map HashItem.path).Nodup)
    (hp : completed.Perm (canonicalResults items)) :
    awaitAll completed items = items := by
  have hcnd : ((canonicalResults items).map Prod.fst).Nodup :=
    (canonical_keys_sublist items).nodup hnd
  have hlook : ∀ k, lookupAL completed k = lookupAL (canonicalResults items) k :=
    fun k => (lookupAL_perm hcnd hp.symm k).symm
  unfold awaitAll
  have : ∀ it ∈ items,
      (fun it => { it with digest := lookupAL completed it.path }) it = id it := by
    intro it hmem
    simp only [id]
    rw [hlook, canonical_lookup items hnd it hmem]
  rw [List.map_congr_left this, List.map_id]

theorem scan_sched_eq (files : List WalkFile) (patterns : List ResidualPattern)
    (w : Nat) (completed : List (String × String))
    (hnd : (files.map fpathStr).Nodup)
    (hp : completed.Perm (canonicalResults (files_to_hash patterns files))) :
    scan_for_duplicates_sched files patterns w completed =
      scan_for_duplicates files patterns := by
  have hind : ((files_to_hash patterns files).map HashItem.path).Nodup :=
    (files_to_hash_paths_sublist patterns files).nodup hnd
  unfold scan_for_duplicates_sched scan_for_duplicates hash_files_parallel_sched
  rw [awaitAll_eq_of_perm hind hp]

/-- C5: in every (uncancelled) duplicate-detection run, (1) files whose base
name matches an enabled residual pattern are excluded from hashing — they
appear neither in `file_info` nor in any duplicate group; (2) the returned
`duplicates` map contains exactly those digests shared by at least two
hashed paths, each mapped to the list of ALL hashed paths carrying that
digest (in enumeration order); (3) `file_info` maps every successfully
hashed path to its `(digest, size, name)` triple.  The hypothesis is that
the walk enumerates distinct paths. -/

theorem scan_for_duplicates_spec (files : List WalkFile)
    (patterns : List ResidualPattern)
    (hnd : (files.map fpathStr).Nodup) :
    (∀ f ∈ files,
      (match_residual_pattern (f.dir ++ [f.name]) patterns).isSome →
      lookupAL (scan_for_duplicates files patterns).file_info (fpathStr f) =
        none ∧
      ∀ h ps, (h, ps) ∈ (scan_for_duplicates files patterns).duplicates →
        fpathStr f ∉ ps) ∧
    (∀ h ps, (h, ps) ∈ (scan_for_duplicates files patterns).duplicates ↔
      (ps = groupOf (files_to_hash patterns files) h ∧
       2 ≤ (groupOf (files_to_hash patterns files) h).length)) ∧
    (∀ it ∈ files_to_hash patterns files, ∀ h, it.digest = some h →
      lookupAL (scan_for_duplicates files patterns).file_info it.path =
        some (h, it.size, it.name)) := by
  have hind : ((files_to_hash patterns files).map HashItem.path).Nodup :=
    (files_to_hash_paths_sublist patterns files).nodup hnd
  have hdup : (scan_for_duplicates files patterns).duplicates =
      (hash_files_parallel (files_to_hash patterns files)).file_hashes.filter
        (fun g => decide (1 < g.2.length)) := rfl
  have hfi : (scan_for_duplicates files patterns).file_info =
      (hash_files_parallel (files_to_hash patterns files)).file_info := rfl
  refine ⟨?_, ?_, ?_⟩
  · intro f hf hres
    have hnotin : fpathStr f ∉ (files_to_hash patterns files).map HashItem.path := by
      intro hc
      obtain ⟨it, hit, hpath⟩ := List.mem_map.mp hc
      obtain ⟨g, hg, hgres, hgpath⟩ := files_to_hash_mem hit
      have hpg : fpathStr g = fpathStr f := by rw [← hgpath, hpath]
      have hfg : g = f := List.inj_on_of_nodup_map hnd hg hf hpg
      rw [hfg] at hgres
      rw [hgres] at hres
      simp at hres
    constructor
    · rw [hfi]
      unfold hash_files_parallel
      rw [hashLoop_fi_not_mem _ _ _ hnotin]
      rfl
    · intro h ps hmem hin
      rw [hdup] at hmem
      have := ((dups_mem_iff _ h ps).mp hmem).1
      subst this
      exact hnotin (groupOf_subset hin)
  · intro h ps
    rw [hdup]
    exact dups_mem_iff _ h ps
  · intro it hit h hdig
    rw [hfi]
    exact hashLoop_fi_mem _ _ it h hind hit hdig

theorem scan_for_duplicates_spec_witness :
    (∀ f ∈ dupFiles,
      (match_residual_pattern (f.dir ++ [f.name]) [dsStorePattern]).isSome →
      lookupAL (scan_for_duplicates dupFiles [dsStorePattern]).file_info
        (fpathStr f) = none ∧
      ∀ h ps,
        (h, ps) ∈ (scan_for_duplicates dupFiles [dsStorePattern]).duplicates →
        fpathStr f ∉ ps) ∧
    (∀ h ps,
      (h, ps) ∈ (scan_for_duplicates dupFiles [dsStorePattern]).duplicates ↔
      (ps = groupOf (files_to_hash [dsStorePattern] dupFiles) h ∧
       2 ≤ (groupOf (files_to_hash [dsStorePattern] dupFiles) h).length)) ∧
    (∀ it ∈ files_to_hash [dsStorePattern] dupFiles, ∀ h,
      it.digest = some h →
      lookupAL (scan_for_duplicates dupFiles [dsStorePattern]).file_info
        it.path = some (h, it.size, it.name)) :=
  scan_for_duplicates_spec dupFiles [dsStorePattern] (by decide)

/-- C6: for a fixed enumeration, the duplicate groups and the designated
keep member are identical across runs regardless of worker count or
hash-completion order.  `c₁`/`c₂` are the executor's completed-futures
tables of two runs with `w₁` resp. `w₂` workers: any permutation of the
canonical per-file results (each future's value is a pure function of its
file, so scheduling permutes, never alters, the table).  Both runs return
identical results, and in every group the first listed path (marked
`[KEEP]` by `on_duplicate_scan_finished`, index 0) is the first-enumerated
hashed path carrying that digest. -/

theorem duplicate_scan_schedule_independent (files : List WalkFile)
    (patterns : List ResidualPattern) (w₁ w₂ : Nat)
    (c₁ c₂ : List (String × String))
    (hnd : (files.map fpathStr).Nodup)
    (h1 : c₁.Perm (canonicalResults (files_to_hash patterns files)))
    (h2 : c₂.Perm (canonicalResults (files_to_hash patterns files))) :
    scan_for_duplicates_sched files patterns w₁ c₁ =
      scan_for_duplicates_sched files patterns w₂ c₂ ∧
    ∀ h ps,
      (h, ps) ∈ (scan_for_duplicates_sched files patterns w₁ c₁).duplicates →
      ps.head? = ((files_to_hash patterns files).find?
        (fun it => decide (it.digest = some h))).map HashItem.path := by
  have e1 := scan_sched_eq files patterns w₁ c₁ hnd h1
  have e2 := scan_sched_eq files patterns w₂ c₂ hnd h2
  refine ⟨e1.trans e2.symm, ?_⟩
  intro h ps hmem
  rw [e1] at hmem
  have hmem' : (h, ps) ∈
      (hash_files_parallel (files_to_hash patterns files)).file_hashes.filter
        (fun g => decide (1 < g.2.length)) := hmem
  have hiff := (dups_mem_iff _ h ps).mp hmem'
  rw [hiff.1, groupOf_head]

/-- The canonical completed-futures table of `dupFiles`, reversed: a run in
which the second file's hash finished first. -/

theorem duplicate_scan_schedule_independent_witness :
    (scan_for_duplicates_sched dupFiles [dsStorePattern] 1
        (canonicalResults (files_to_hash [dsStorePattern] dupFiles)) =
      scan_for_duplicates_sched dupFiles [dsStorePattern] 8 dupCompletedRev) ∧
    ∀ h ps,
      (h, ps) ∈ (scan_for_duplicates_sched dupFiles [dsStorePattern] 1
        (canonicalResults (files_to_hash [dsStorePattern] dupFiles))).duplicates →
      ps.head? = ((files_to_hash [dsStorePattern] dupFiles).find?
        (fun it => decide (it.digest = some h))).map HashItem.path :=
  duplicate_scan_schedule_independent dupFiles [dsStorePattern] 1 8 _ _
    (by decide) (List.Perm.refl _) (by decide)

/-! ## The filesystem model for the purger and the empty-directory scan

A filesystem is a finite association list from absolute paths (component
lists) to entry kinds.  Directory-entry order is list order.  Symlinks are
modelled as non-directory leaf entries: `os.walk` (`followlinks=False`)
never descends into them and they occupy a directory entry exactly like a
file, which is all the purger and the scanners observe about them. -/

theorem lock_preexisting_removed_on_failed_run :
    (AtomicEmptyDirPurger_run liveCfg lockedFS).1 =
      .error PurgeErr.lockHeld ∧
    (AtomicEmptyDirPurger_run liveCfg lockedFS).2.renamed = [] ∧
    (AtomicEmptyDirPurger_run liveCfg lockedFS).2.deleted = [] ∧
    (AtomicEmptyDirPurger_run liveCfg lockedFS).2.trace =
      [PEffect.rmdirE ["r", ".purge.lock"]] ∧
    lookupFS (AtomicEmptyDirPurger_run liveCfg lockedFS).2.fs
      ["r", ".purge.lock"] = none :=
  ⟨rfl, rfl, rfl, rfl, rfl⟩

/-- The specification's phase-2 contract, following §4.6 step 4 of the spec:
starting from filesystem `fs` and processing the quarantine list in order,
every path reported deleted was an existing directory with zero entries at
the moment of its final pre-delete check (and exactly that node was
removed); any path failing that check is skipped and processing continues.
-/

theorem phase2_foldl_ok (cfg : PurgeCfg) (hdry : cfg.dry = false) :
    ∀ (l : List FPath) (st : PState), ∃ out,
      (l.foldl (phase2Step cfg) st).deleted = st.deleted ++ out ∧
      (l.foldl (phase2Step cfg) st).renamed = st.renamed ∧
      Phase2Ok st.fs l out (l.foldl (phase2Step cfg) st).fs := by
  intro l
  induction l with
  | nil => intro st; exact ⟨[], by simp, rfl, Phase2Ok.nil st.fs⟩
  | cons d ds ih =>
    intro st
    rw [List.foldl_cons]
    match hrm : rmdirFS st.fs d with
    | some fs1 =>
      have hcond : lookupFS st.fs d = some EKind.dir ∧ childNames st.fs d = [] := by
        by_contra hc
        rw [rmdirFS, if_neg hc] at hrm
        exact Option.noConfusion hrm
      have hfs1 : fs1 = removeNode st.fs d := by
        rw [rmdirFS, if_pos hcond] at hrm
        injection hrm with hrm
        exact hrm.symm
      have hstep : phase2Step cfg st d =
          { st with
            fs := fs1
            trace := st.trace ++ [.rmdirE d]
            deleted := st.deleted ++ [d] } := by
        rw [phase2Step, if_neg (by rw [hdry]; exact Bool.false_ne_true), hrm]
      rw [hstep]
      obtain ⟨out, hdel, hren, hok⟩ := ih _
      refine ⟨d :: out, ?_, hren, ?_⟩
      · rw [hdel]
        simp
      · subst hfs1
        exact Phase2Ok.del hcond.1 hcond.2 hok
    | none =>
      have hcond : ¬(lookupFS st.fs d = some EKind.dir ∧ childNames st.fs d = []) := by
        intro hc
        rw [rmdirFS, if_pos hc] at hrm
        exact Option.noConfusion hrm
      have hstep : phase2Step cfg st d = st := by
        rw [phase2Step, if_neg (by rw [hdry]; exact Bool.false_ne_true), hrm]
      rw [hstep]
      obtain ⟨out, hdel, hren, hok⟩ := ih st
      exact ⟨out, hdel, hren, Phase2Ok.keep hcond hok⟩

/-- C2: in every live run, phase 2 refines the spec's phase-2 contract
`Phase2Ok`: the `deleted` list grows exactly by directories that were still
existing and empty at the moment of their `rmdir` (the final pre-delete
check, which for `Path.rmdir` is the atomic emptiness check of the OS call
itself), a quarantined directory that is no longer empty is skipped (its
`OSError` is caught and logged, never force-removed), such per-item
failures never abort the loop, and the `renamed` report is untouched. -/

theorem phase2_never_removes_nonempty (root : FPath) (btr syn : Bool)
    (lname : String) (sfx : Nat → String) (st : PState) : ∃ out,
    (phase2_delete ⟨root, false, btr, syn, lname, sfx⟩ st).deleted =
      st.deleted ++ out ∧
    (phase2_delete ⟨root, false, btr, syn, lname, sfx⟩ st).renamed =
      st.renamed ∧
    Phase2Ok st.fs (sortDeepFirst st.renamed) out
      (phase2_delete ⟨root, false, btr, syn, lname, sfx⟩ st).fs :=
  phase2_foldl_ok ⟨root, false, btr, syn, lname, sfx⟩ rfl
    (sortDeepFirst st.renamed) st

theorem insSorted_mem {a d : FPath} {l : List FPath}
    (h : d ∈ insSorted a l) : d = a ∨ d ∈ l := by
  induction l with
  | nil => simpa [insSorted] using h
  | cons b bs ih =>
    rw [insSorted] at h
    by_cases hle : deepFirstLE a b = true
    · rw [if_pos hle] at h
      rcases List.mem_cons.mp h with h1 | h2
      · exact Or.inl h1
      · exact Or.inr h2
    · rw [if_neg hle] at h
      rcases List.mem_cons.mp h with h1 | h2
      · exact Or.inr (List.mem_cons.mpr (Or.inl h1))
      · rcases ih h2 with h3 | h4
        · exact Or.inl h3
        · exact Or.inr (List.mem_cons.mpr (Or.inr h4))

theorem sortDeepFirst_mem {d : FPath} :
    ∀ {l : List FPath}, d ∈ sortDeepFirst l → d ∈ l := by
  intro l
  induction l with
  | nil => intro h; simpa [sortDeepFirst] using h
  | cons a as ih =>
    intro h
    rw [sortDeepFirst, List.foldr_cons] at h
    rcases insSorted_mem h with h1 | h2
    · simp [h1]
    · simp [ih h2]

theorem syncFold_fields (ps : List FPath) :
    ∀ (st : PState),
      (ps.foldl syncPathE st).fs = st.fs ∧
      (ps.foldl syncPathE st).renamed = st.renamed ∧
      (ps.foldl syncPathE st).deleted = st.deleted ∧
      (ps.foldl syncPathE st).nsuf = st.nsuf := by
  induction ps with
  | nil => intro st; exact ⟨rfl, rfl, rfl, rfl⟩
  | cons p ps ih =>
    intro st
    rw [List.foldl_cons]
    exact ih _

theorem sync_barriers_fields (cfg : PurgeCfg) (st : PState) :
    (sync_barriers cfg st).fs = st.fs ∧
    (sync_barriers cfg st).renamed = st.renamed ∧
    (sync_barriers cfg st).deleted = st.deleted := by
  rw [sync_barriers]
  by_cases h1 : cfg.dry = true ∨ cfg.sync_enabled = false
  · rw [if_pos h1]
    exact ⟨rfl, rfl, rfl⟩
  · rw [if_neg h1]
    by_cases h2 : cfg.btrfs = true
    · rw [if_pos h2]
      obtain ⟨hfs, hren, hdel, _⟩ := syncFold_fields st.renamed st
      exact ⟨hfs, hren, hdel⟩
    · rw [if_neg h2]
      obtain ⟨hfs, hren, hdel, _⟩ :=
        syncFold_fields (sortShallowFirst (st.renamed.map List.dropLast).dedup) st
      exact ⟨hfs, hren, hdel⟩

theorem final_sync_fields (cfg : PurgeCfg) (st : PState) :
    (final_sync cfg st).fs = st.fs ∧
    (final_sync cfg st).renamed = st.renamed ∧
    (final_sync cfg st).deleted = st.deleted := by
  rw [final_sync]
  by_cases h1 : cfg.dry = true ∨ cfg.sync_enabled = false
  · rw [if_pos h1]; exact ⟨rfl, rfl, rfl⟩
  · rw [if_neg h1]; exact ⟨rfl, rfl, rfl⟩

theorem release_lock_rd (cfg : PurgeCfg) (st : PState) :
    (release_lock cfg st).renamed = st.renamed ∧
    (release_lock cfg st).deleted = st.deleted := by
  rw [release_lock]
  by_cases h1 : cfg.dry = true
  · rw [if_pos h1]; exact ⟨rfl, rfl⟩
  · rw [if_neg h1]
    by_cases h2 : (lookupFS st.fs (lockDirOf cfg)).isSome = true
    · rw [if_pos h2]
      match rmdirFS st.fs (lockDirOf cfg) with
      | some fs' => exact ⟨rfl, rfl⟩
      | none => exact ⟨rfl, rfl⟩
    · rw [if_neg h2]; exact ⟨rfl, rfl⟩

theorem phase2Step_renamed (cfg : PurgeCfg) (st : PState) (d : FPath) :
    (phase2Step cfg st d).renamed = st.renamed := by
  rw [phase2Step]
  by_cases h1 : cfg.dry = true
  · rw [if_pos h1]
  · rw [if_neg h1]
    match rmdirFS st.fs d with
    | some fs' => rfl
    | none => rfl

theorem phase2_foldl_renamed (cfg : PurgeCfg) :
    ∀ (l : List FPath) (st : PState),
      (l.foldl (phase2Step cfg) st).renamed = st.renamed := by
  intro l
  induction l with
  | nil => intro st; rfl
  | cons d ds ih =>
    intro st
    rw [List.foldl_cons, ih, phase2Step_renamed]

theorem phase2_foldl_deleted_mem (cfg : PurgeCfg) :
    ∀ (l : List FPath) (st : PState) (d : FPath),
      d ∈ (l.foldl (phase2Step cfg) st).deleted →
      d ∈ st.deleted ∨ d ∈ l := by
  intro l
  induction l with
  | nil => intro st d h; exact Or.inl h
  | cons e ds ih =>
    intro st d h
    rw [List.foldl_cons] at h
    rcases ih _ d h with h1 | h2
    · have hstep : (phase2Step cfg st e).deleted = st.deleted ∨
          (phase2Step cfg st e).deleted = st.deleted ++ [e] := by
        rw [phase2Step]
        by_cases hd : cfg.dry = true
        · rw [if_pos hd]; exact Or.inr rfl
        · rw [if_neg hd]
          match rmdirFS st.fs e with
          | some fs' => exact Or.inr rfl
          | none => exact Or.inl rfl
      rcases hstep with he | he
      · rw [he] at h1
        exact Or.inl h1
      · rw [he] at h1
        rcases List.mem_append.mp h1 with h3 | h4
        · exact Or.inl h3
        · simp at h4
          simp [h4]
    · simp [h2]

theorem phase1Process_deleted (cfg : PurgeCfg) (st1 : PState) (p : FPath)
    (dn fn : List String) :
    (phase1Process cfg st1 p dn fn).deleted = st1.deleted := by
  rw [phase1Process]
  split_ifs <;>
    first
      | rfl
      | (cases hr : renameFS st1.fs p
          (withSuffix p (".purge." ++ cfg.suffix st1.nsuf)) <;> simp [hr])

theorem phase1Visit_deleted (cfg : PurgeCfg) :
    ∀ (fuel : Nat) (p : FPath) (st : PState),
      (phase1Visit cfg fuel st p).deleted = st.deleted := by
  intro fuel
  induction fuel with
  | zero => intro p st; rfl
  | succ fuel ih =>
    intro p st
    rw [phase1Visit, phase1Process_deleted]
    generalize p1dirnames st.fs p = ns
    induction ns generalizing st with
    | nil => rfl
    | cons n ns ihn =>
      rw [List.foldl_cons]
      rw [ihn, ih]

/-- C10: for every run — dry or live, successful or failed — every path in
the final `deleted` report also occurs in the final `renamed` report:
phase 2 only ever processes (a sorted copy of) the `renamed` list, and no
later stage touches either report. -/

theorem deleted_subset_renamed (cfg : PurgeCfg) (fs : FS) :
    ((AtomicEmptyDirPurger_run cfg fs).2.deleted.all
      (fun d => (AtomicEmptyDirPurger_run cfg fs).2.renamed.any
        (fun q => decide (q = d)))) = true := by
  rw [List.all_eq_true]
  intro d hd
  rw [List.any_eq_true]
  refine ⟨d, ?_, by simp⟩
  revert hd
  rw [AtomicEmptyDirPurger_run]
  by_cases hroot : lookupFS fs cfg.root = some EKind.dir
  · rw [if_pos hroot]
    match hacq : acquire_lock cfg (initPState fs) with
    | .error e =>
      intro hd
      obtain ⟨_, hdel⟩ := release_lock_rd cfg (initPState fs)
      rw [hdel] at hd
      simp [initPState] at hd
    | .ok st1 =>
      intro hd
      simp only at hd ⊢
      obtain ⟨hrrel, hdrel⟩ := release_lock_rd cfg
        (final_sync cfg (phase2_delete cfg (sync_barriers cfg
          (phase1_rename_empty cfg st1))))
      rw [hdrel] at hd
      rw [hrrel]
      obtain ⟨_, hrfin, hdfin⟩ := final_sync_fields cfg
        (phase2_delete cfg (sync_barriers cfg (phase1_rename_empty cfg st1)))
      rw [hdfin] at hd
      rw [hrfin]
      rw [phase2_delete] at hd ⊢
      rw [phase2_foldl_renamed]
      rcases phase2_foldl_deleted_mem cfg _ _ d hd with h1 | h2
      · exfalso
        obtain ⟨_, _, hdsync⟩ := sync_barriers_fields cfg
          (phase1_rename_empty cfg st1)
        rw [hdsync, phase1_rename_empty, phase1Visit_deleted] at h1
        have hst1d : st1.deleted = [] := by
          rw [acquire_lock] at hacq
          by_cases hdry : cfg.dry = true
          · rw [if_pos hdry] at hacq
            cases hacq
            rfl
          · rw [if_neg hdry] at hacq
            match hmk : mkdirFS (initPState fs).fs (lockDirOf cfg) with
            | none => rw [hmk] at hacq; cases hacq
            | some fs' =>
              rw [hmk] at hacq
              cases hacq
              rfl
        rw [hst1d] at h1
        simp at h1
      · exact sortDeepFirst_mem h2
  · rw [if_neg hroot]
    intro hd
    simp [initPState] at hd

theorem filter_both_empty {l : List String} {f : String → Bool}
    (h1 : l.filter f = []) (h2 : l.filter (fun x => !f x) = []) : l = [] := by
  match l with
  | [] => rfl
  | a :: rest =>
    exfalso
    by_cases hf : f a = true
    · rw [List.filter_cons, if_pos hf] at h1
      exact List.noConfusion h1
    · have hf' : (!f a) = true := by simp [hf]
      rw [List.filter_cons, if_pos hf'] at h2
      exact List.noConfusion h2

theorem phase1Process_dry (cfg : PurgeCfg) (hdry : cfg.dry = true)
    (st1 : PState) (p : FPath) (dn fn : List String) :
    (phase1Process cfg st1 p dn fn).fs = st1.fs ∧
    (phase1Process cfg st1 p dn fn).trace = st1.trace ∧
    (phase1Process cfg st1 p dn fn).deleted = st1.deleted ∧
    ((phase1Process cfg st1 p dn fn).renamed = st1.renamed ∨
     ((phase1Process cfg st1 p dn fn).renamed =
        st1.renamed ++ [withSuffix p (".purge." ++ cfg.suffix st1.nsuf)] ∧
      dn = [] ∧ fn = [] ∧ p ≠ cfg.root ∧ pname p ≠ cfg.lock_name)) := by
  rw [phase1Process]
  by_cases h1 : pname p = cfg.lock_name
  · rw [if_pos h1]
    exact ⟨rfl, rfl, rfl, Or.inl rfl⟩
  · rw [if_neg h1]
    by_cases h2 : p = cfg.root
    · rw [if_pos h2]
      exact ⟨rfl, rfl, rfl, Or.inl rfl⟩
    · rw [if_neg h2]
      by_cases h3 : dn = [] ∧ fn = []
      · rw [if_pos h3, if_pos hdry]
        exact ⟨rfl, rfl, rfl, Or.inr ⟨rfl, h3.1, h3.2, h2, h1⟩⟩
      · rw [if_neg h3]
        exact ⟨rfl, rfl, rfl, Or.inl rfl⟩

theorem phase1Visit_dry (cfg : PurgeCfg) (hdry : cfg.dry = true) :
    ∀ (fuel : Nat) (p : FPath) (st : PState),
      lookupFS st.fs p = some EKind.dir →
      (phase1Visit cfg fuel st p).fs = st.fs ∧
      (phase1Visit cfg fuel st p).trace = st.trace ∧
      (phase1Visit cfg fuel st p).deleted = st.deleted ∧
      ∃ new, (phase1Visit cfg fuel st p).renamed = st.renamed ++ new ∧
        ∀ q ∈ new, ∃ p' n,
          q = withSuffix p' (".purge." ++ cfg.suffix n) ∧
          lookupFS st.fs p' = some EKind.dir ∧
          childNames st.fs p' = [] ∧
          p' ≠ cfg.root ∧ pname p' ≠ cfg.lock_name := by
  intro fuel
  induction fuel with
  | zero =>
    intro p st _
    exact ⟨rfl, rfl, rfl, [], by simp [phase1Visit], by simp⟩
  | succ fuel ih =>
    intro p st hp
    have aux : ∀ (ns : List String) (s : PState),
        s.fs = st.fs → s.trace = st.trace → s.deleted = st.deleted →
        (∀ n ∈ ns, lookupFS st.fs (p ++ [n]) = some EKind.dir) →
        (ns.foldl (fun s n => phase1Visit cfg fuel s (p ++ [n])) s).fs = st.fs ∧
        (ns.foldl (fun s n => phase1Visit cfg fuel s (p ++ [n])) s).trace
          = st.trace ∧
        (ns.foldl (fun s n => phase1Visit cfg fuel s (p ++ [n])) s).deleted
          = st.deleted ∧
        ∃ new,
          (ns.foldl (fun s n => phase1Visit cfg fuel s (p ++ [n])) s).renamed =
            s.renamed ++ new ∧
          ∀ q ∈ new, ∃ p' n,
            q = withSuffix p' (".purge." ++ cfg.suffix n) ∧
            lookupFS st.fs p' = some EKind.dir ∧
            childNames st.fs p' = [] ∧
            p' ≠ cfg.root ∧ pname p' ≠ cfg.lock_name := by
      intro ns
      induction ns with
      | nil =>
        intro s hfs htr hdel _
        exact ⟨hfs, htr, hdel, [], by simp, by simp⟩
      | cons n ns ihn =>
        intro s hfs htr hdel hns
        rw [List.foldl_cons]
        have hlook : lookupFS s.fs (p ++ [n]) = some EKind.dir := by
          rw [hfs]
          exact hns n (List.mem_cons.mpr (Or.inl rfl))
        obtain ⟨hfs1, htr1, hdel1, new1, hren1, hprops1⟩ := ih (p ++ [n]) s hlook
        obtain ⟨hfs2, htr2, hdel2, new2, hren2, hprops2⟩ :=
          ihn (phase1Visit cfg fuel s (p ++ [n]))
            (hfs1.trans hfs) (htr1.trans htr) (hdel1.trans hdel)
            (fun m hm => hns m (List.mem_cons.mpr (Or.inr hm)))
        refine ⟨hfs2, htr2, hdel2, new1 ++ new2, ?_, ?_⟩
        · rw [hren2, hren1, List.append_assoc]
        · intro q hq
          rcases List.mem_append.mp hq with hq1 | hq2
          · obtain ⟨p', m, ha, hb, hc, hd, he⟩ := hprops1 q hq1
            rw [hfs] at hb hc
            exact ⟨p', m, ha, hb, hc, hd, he⟩
          · exact hprops2 q hq2
    rw [phase1Visit]
    have hD : ∀ n ∈ p1dirnames st.fs p,
        lookupFS st.fs (p ++ [n]) = some EKind.dir := by
      intro n hn
      rw [p1dirnames] at hn
      have := (List.mem_filter.mp hn).2
      simpa using this
    obtain ⟨hfs1, htr1, hdel1, new1, hren1, hprops1⟩ :=
      aux (p1dirnames st.fs p) st rfl rfl rfl hD
    obtain ⟨hpfs, hptr, hpdel, hpren⟩ := phase1Process_dry cfg hdry
      ((p1dirnames st.fs p).foldl
        (fun s n => phase1Visit cfg fuel s (p ++ [n])) st)
      p (p1dirnames st.fs p) (p1filenames st.fs p)
    refine ⟨hpfs.trans hfs1, hptr.trans htr1, hpdel.trans hdel1, ?_⟩
    rcases hpren with hsame | ⟨hadd, hdn, hfn, hroot2, hlock2⟩
    · exact ⟨new1, hsame.trans hren1, hprops1⟩
    · refine ⟨new1 ++ [withSuffix p (".purge." ++ cfg.suffix
        ((p1dirnames st.fs p).foldl
          (fun s n => phase1Visit cfg fuel s (p ++ [n])) st).nsuf)], ?_, ?_⟩
      · rw [hadd, hren1, List.append_assoc]
      · intro q hq
        rcases List.mem_append.mp hq with hq1 | hq2
        · exact hprops1 q hq1
        · simp only [List.mem_singleton] at hq2
          subst hq2
          refine ⟨p, _, rfl, hp, ?_, hroot2, hlock2⟩
          rw [p1dirnames] at hdn
          rw [p1filenames] at hfn
          exact filter_both_empty hdn hfn

theorem phase2_foldl_dry (cfg : PurgeCfg) (hdry : cfg.dry = true) :
    ∀ (l : List FPath) (st : PState),
      (l.foldl (phase2Step cfg) st).fs = st.fs ∧
      (l.foldl (phase2Step cfg) st).trace = st.trace ∧
      (l.foldl (phase2Step cfg) st).renamed = st.renamed ∧
      (l.foldl (phase2Step cfg) st).deleted = st.deleted ++ l := by
  intro l
  induction l with
  | nil => intro st; exact ⟨rfl, rfl, rfl, by simp⟩
  | cons d ds ih =>
    intro st
    rw [List.foldl_cons]
    rw [show phase2Step cfg st d = { st with deleted := st.deleted ++ [d] } from
      by rw [phase2Step, if_pos hdry]]
    obtain ⟨h1, h2, h3, h4⟩ := ih { st with deleted := st.deleted ++ [d] }
    exact ⟨h1, h2, h3, by rw [h4]; simp⟩

theorem phase1Process_dry_mono (cfg : PurgeCfg) (hdry : cfg.dry = true)
    (st1 : PState) (p : FPath) (dn fn : List String) :
    (phase1Process cfg st1 p dn fn).fs = st1.fs ∧
    ∃ new, (phase1Process cfg st1 p dn fn).renamed = st1.renamed ++ new := by
  obtain ⟨hfs, _, _, hren⟩ := phase1Process_dry cfg hdry st1 p dn fn
  rcases hren with h | ⟨h, _⟩
  · exact ⟨hfs, [], by rw [h, List.append_nil]⟩
  · exact ⟨hfs, [withSuffix p (".purge." ++ cfg.suffix st1.nsuf)], h⟩

theorem phase1Visit_dry_mono (cfg : PurgeCfg) (hdry : cfg.dry = true) :
    ∀ (fuel : Nat) (p : FPath) (st : PState),
      (phase1Visit cfg fuel st p).fs = st.fs ∧
      ∃ new, (phase1Visit cfg fuel st p).renamed = st.renamed ++ new := by
  intro fuel
  induction fuel with
  | zero =>
    intro p st
    exact ⟨rfl, [], by simp [phase1Visit]⟩
  | succ fuel ih =>
    intro p st
    rw [phase1Visit]
    have aux : ∀ (ns : List String) (s : PState),
        ((ns.foldl (fun s n => phase1Visit cfg fuel s (p ++ [n])) s).fs
          = s.fs ∧
         ∃ new,
          (ns.foldl (fun s n => phase1Visit cfg fuel s (p ++ [n])) s).renamed
            = s.renamed ++ new) := by
      intro ns
      induction ns with
      | nil => intro s; exact ⟨rfl, [], by simp⟩
      | cons n ns ihn =>
        intro s
        rw [List.foldl_cons]
        obtain ⟨hf1, new1, hr1⟩ := ih (p ++ [n]) s
        obtain ⟨hf2, new2, hr2⟩ := ihn (phase1Visit cfg fuel s (p ++ [n]))
        exact ⟨hf2.trans hf1, new1 ++ new2,
          by rw [hr2, hr1, List.append_assoc]⟩
    obtain ⟨hf, new1, hr⟩ := aux (p1dirnames st.fs p) st
    obtain ⟨hpf, new2, hpr⟩ := phase1Process_dry_mono cfg hdry _ p
      (p1dirnames st.fs p) (p1filenames st.fs p)
    exact ⟨hpf.trans hf, new1 ++ new2, by rw [hpr, hr, List.append_assoc]⟩

theorem phase1_foldl_dry_mono (cfg : PurgeCfg) (hdry : cfg.dry = true)
    (fuel : Nat) (p : FPath) :
    ∀ (ns : List String) (s : PState),
      ((ns.foldl (fun s n => phase1Visit cfg fuel s (p ++ [n])) s).fs
        = s.fs ∧
       ∃ new,
        (ns.foldl (fun s n => phase1Visit cfg fuel s (p ++ [n])) s).renamed
          = s.renamed ++ new) := by
  intro ns
  induction ns with
  | nil => intro s; exact ⟨rfl, [], by simp⟩
  | cons n ns ihn =>
    intro s
    rw [List.foldl_cons]
    obtain ⟨hf1, new1, hr1⟩ := phase1Visit_dry_mono cfg hdry fuel (p ++ [n]) s
    obtain ⟨hf2, new2, hr2⟩ := ihn (phase1Visit cfg fuel s (p ++ [n]))
    exact ⟨hf2.trans hf1, new1 ++ new2, by rw [hr2, hr1, List.append_assoc]⟩

theorem lookupFS_mem {fs : FS} {q : FPath} {k : EKind}
    (h : lookupFS fs q = some k) : (q, k) ∈ fs := by
  induction fs with
  | nil => simp [lookupFS] at h
  | cons qk rest ih =>
    match qk with
    | (q', k') =>
      by_cases hq : q' = q
      · rw [lookupFS, if_pos hq] at h
        injection h with h
        simp [hq, h]
      · rw [lookupFS, if_neg hq] at h
        simp [ih h]

theorem mem_childNames_of_lookup {fs : FS} {p : FPath} {n : String} {k : EKind}
    (h : lookupFS fs (p ++ [n]) = some k) : n ∈ childNames fs p := by
  rw [childNames]
  refine List.mem_filterMap.mpr ⟨(p ++ [n], k), lookupFS_mem h, ?_⟩
  rw [if_pos ⟨List.take_left p [n], by simp⟩]
  exact List.getLast?_concat p

theorem mem_p1dirnames {fs : FS} {p : FPath} {n : String}
    (h : lookupFS fs (p ++ [n]) = some EKind.dir) : n ∈ p1dirnames fs p := by
  rw [p1dirnames]
  exact List.mem_filter.mpr ⟨mem_childNames_of_lookup h, by simp [h]⟩

theorem descends_len_le {fs : FS} {p target : FPath}
    (h : DescendsTo fs p target) : p.length ≤ target.length := by
  induction h with
  | refl p => exact Nat.le_refl _
  | step hlook hdesc ih =>
    refine Nat.le_trans ?_ ih
    simp

theorem descends_chain {fs : FS} {p target : FPath}
    (h : DescendsTo fs p target) :
    ∃ l : List FPath, l.Nodup ∧ (∀ x ∈ l, (x, EKind.dir) ∈ fs) ∧
      l.length + p.length = target.length ∧
      ∀ x ∈ l, p.length < x.length := by
  induction h with
  | refl p => exact ⟨[], by simp, by simp, by simp, by simp⟩
  | @step p q n hlook hdesc ih =>
    obtain ⟨l, hnd, hmem, hlen, hgt⟩ := ih
    have hlp : (p ++ [n]).length = p.length + 1 := by simp
    refine ⟨(p ++ [n]) :: l, ?_, ?_, ?_, ?_⟩
    · rw [List.nodup_cons]
      refine ⟨fun hc => ?_, hnd⟩
      have := hgt _ hc
      omega
    · intro x hx
      rcases List.mem_cons.mp hx with h1 | h2
      · rw [h1]
        exact lookupFS_mem hlook
      · exact hmem x h2
    · simp only [List.length_cons]
      omega
    · intro x hx
      rcases List.mem_cons.mp hx with h1 | h2
      · rw [h1, hlp]
        omega
      · have := hgt x h2
        omega

theorem descends_depth_le {fs : FS} {p target : FPath}
    (h : DescendsTo fs p target) : target.length - p.length ≤ fs.length := by
  obtain ⟨l, hnd, hmem, hlen, _⟩ := descends_chain h
  have hnd' : (l.map (fun x => (x, EKind.dir))).Nodup :=
    hnd.map (fun a b hab => by injection hab)
  have hsub : (l.map (fun x => (x, EKind.dir))) ⊆ fs := by
    intro y hy
    obtain ⟨x, hx, rfl⟩ := List.mem_map.mp hy
    exact hmem x hx
  have hle := (hnd'.subperm hsub).length_le
  rw [List.length_map] at hle
  omega

theorem phase1Visit_dry_complete (cfg : PurgeCfg) (hdry : cfg.dry = true) :
    ∀ (fuel : Nat) (p target : FPath) (st : PState),
      DescendsTo st.fs p target →
      target.length - p.length < fuel →
      pname target ≠ cfg.lock_name →
      target ≠ cfg.root →
      childNames st.fs target = [] →
      ∃ n, withSuffix target (".purge." ++ cfg.suffix n) ∈
        (phase1Visit cfg fuel st p).renamed := by
  intro fuel
  induction fuel with
  | zero =>
    intro p target st _ hlt _ _ _
    omega
  | succ fuel ih =>
    intro p target st hdesc hlt hlock hroot hempty
    cases hdesc with
    | refl =>
      have hdn : p1dirnames st.fs p = [] := by
        rw [p1dirnames, hempty]
        rfl
      have hfn : p1filenames st.fs p = [] := by
        rw [p1filenames, hempty]
        rfl
      rw [phase1Visit, hdn, hfn]
      simp only [List.foldl_nil]
      rw [phase1Process, if_neg hlock, if_neg hroot, if_pos ⟨rfl, rfl⟩,
        if_pos hdry]
      exact ⟨st.nsuf, by simp⟩
    | @step _ _ n hlook hdesc2 =>
      have hmem1 : n ∈ p1dirnames st.fs p := mem_p1dirnames hlook
      obtain ⟨l₁, l₂, hsplit⟩ := List.append_of_mem hmem1
      rw [phase1Visit, hsplit, List.foldl_append, List.foldl_cons]
      obtain ⟨hs1fs, _⟩ := phase1_foldl_dry_mono cfg hdry fuel p l₁ st
      have hlt' : target.length - (p ++ [n]).length < fuel := by
        have hge := descends_len_le hdesc2
        simp only [List.length_append, List.length_cons,
          List.length_nil] at hge ⊢
        omega
      obtain ⟨m, hm⟩ := ih (p ++ [n]) target
        (l₁.foldl (fun s n => phase1Visit cfg fuel s (p ++ [n])) st)
        (by rw [hs1fs]; exact hdesc2) hlt' hlock hroot
        (by rw [hs1fs]; exact hempty)
      obtain ⟨_, new2, hr2⟩ := phase1_foldl_dry_mono cfg hdry fuel p l₂
        (phase1Visit cfg fuel
          (l₁.foldl (fun s n => phase1Visit cfg fuel s (p ++ [n])) st)
          (p ++ [n]))
      obtain ⟨_, new3, hr3⟩ := phase1Process_dry_mono cfg hdry
        (l₂.foldl (fun s n => phase1Visit cfg fuel s (p ++ [n]))
          (phase1Visit cfg fuel
            (l₁.foldl (fun s n => phase1Visit cfg fuel s (p ++ [n])) st)
            (p ++ [n])))
        p (l₁ ++ n :: l₂) (p1filenames st.fs p)
      refine ⟨m, ?_⟩
      rw [hr3, hr2]
      exact List.mem_append.mpr (Or.inl (List.mem_append.mpr (Or.inl hm)))

/-- C3: a dry run performs zero filesystem mutations — its effect trace is
empty (no lock mkdir, no rename, no rmdir, no fsync, no sync) and the
filesystem is unchanged — while the run still returns the usual
`(renamed, deleted)` report pair, populated with exactly the intended
quarantine paths: `deleted` is the deepest-first sort of `renamed` (the
same shape phase 2 produces in a live run); every reported path is the
intended quarantine name `<p>.purge.<suffix>` of a directory `p` that is
empty at scan time, is not the scan root and is not the lock directory
(soundness); and conversely every directory the walk reaches that is empty,
not the root and not the lock directory contributes its intended quarantine
name to the report (completeness), so the report is non-empty whenever such
a directory exists. -/

theorem dry_run_no_mutation (root : FPath) (btr syn : Bool) (lname : String)
    (sfx : Nat → String) (fs : FS)
    (hroot : lookupFS fs root = some EKind.dir) :
    (AtomicEmptyDirPurger_run ⟨root, true, btr, syn, lname, sfx⟩ fs).2.trace
      = [] ∧
    (AtomicEmptyDirPurger_run ⟨root, true, btr, syn, lname, sfx⟩ fs).2.fs
      = fs ∧
    (AtomicEmptyDirPurger_run ⟨root, true, btr, syn, lname, sfx⟩ fs).1 =
      .ok ((AtomicEmptyDirPurger_run ⟨root, true, btr, syn, lname, sfx⟩
              fs).2.renamed,
           (AtomicEmptyDirPurger_run ⟨root, true, btr, syn, lname, sfx⟩
              fs).2.deleted) ∧
    (AtomicEmptyDirPurger_run ⟨root, true, btr, syn, lname, sfx⟩ fs).2.deleted
      = sortDeepFirst
        (AtomicEmptyDirPurger_run ⟨root, true, btr, syn, lname, sfx⟩
          fs).2.renamed ∧
    (∀ q ∈ (AtomicEmptyDirPurger_run ⟨root, true, btr, syn, lname, sfx⟩
        fs).2.renamed,
      ∃ p n, q = withSuffix p (".purge." ++ sfx n) ∧
        lookupFS fs p = some EKind.dir ∧ childNames fs p = [] ∧
        p ≠ root ∧ pname p ≠ lname) ∧
    ∀ p, DescendsTo fs root p → p ≠ root → pname p ≠ lname →
      childNames fs p = [] →
      ∃ n, withSuffix p (".purge." ++ sfx n) ∈
        (AtomicEmptyDirPurger_run ⟨root, true, btr, syn, lname, sfx⟩
          fs).2.renamed := by
  set cfg : PurgeCfg := ⟨root, true, btr, syn, lname, sfx⟩ with hcfg
  have hdry : cfg.dry = true := rfl
  have hmain : AtomicEmptyDirPurger_run cfg fs =
      (Except.ok
        ((release_lock cfg (final_sync cfg (phase2_delete cfg
          (sync_barriers cfg (phase1_rename_empty cfg
            (initPState fs)))))).renamed,
         (release_lock cfg (final_sync cfg (phase2_delete cfg
          (sync_barriers cfg (phase1_rename_empty cfg
            (initPState fs)))))).deleted),
       release_lock cfg (final_sync cfg (phase2_delete cfg
          (sync_barriers cfg (phase1_rename_empty cfg
            (initPState fs)))))) := by
    rw [AtomicEmptyDirPurger_run, if_pos hroot]
    rw [show acquire_lock cfg (initPState fs) = Except.ok (initPState fs) from
      by rw [acquire_lock, if_pos hdry]]
  have hsync : ∀ st, sync_barriers cfg st = st := by
    intro st
    rw [sync_barriers, if_pos (Or.inl hdry)]
  have hfin : ∀ st, final_sync cfg st = st := by
    intro st
    rw [final_sync, if_pos (Or.inl hdry)]
  have hrel : ∀ st, release_lock cfg st = st := by
    intro st
    rw [release_lock, if_pos hdry]
  obtain ⟨hafs, hatr, hadel, new, hren, hprops⟩ :=
    phase1Visit_dry cfg hdry ((initPState fs).fs.length + 1) root
      (initPState fs) hroot
  have hp1 : phase1_rename_empty cfg (initPState fs) =
      phase1Visit cfg ((initPState fs).fs.length + 1) (initPState fs) root :=
    rfl
  obtain ⟨h2fs, h2tr, h2ren, h2del⟩ := phase2_foldl_dry cfg hdry
    (sortDeepFirst (phase1_rename_empty cfg (initPState fs)).renamed)
    (phase1_rename_empty cfg (initPState fs))
  rw [hmain, hrel, hfin, hsync]
  have hdelfin : (phase2_delete cfg
      (phase1_rename_empty cfg (initPState fs))).deleted =
      sortDeepFirst (phase1_rename_empty cfg (initPState fs)).renamed := by
    rw [phase2_delete]
    rw [h2del, hp1, hadel]
    simp [initPState]
  have hrenfin : (phase2_delete cfg
      (phase1_rename_empty cfg (initPState fs))).renamed =
      (phase1_rename_empty cfg (initPState fs)).renamed := by
    rw [phase2_delete, h2ren]
  refine ⟨?_, ?_, rfl, ?_, ?_, ?_⟩
  · rw [phase2_delete, h2tr, hp1, hatr]
    rfl
  · rw [phase2_delete, h2fs, hp1, hafs]
    rfl
  · rw [hdelfin, hrenfin]
  · intro q hq
    rw [hrenfin, hp1, hren] at hq
    simp only [initPState, List.nil_append] at hq
    obtain ⟨p', n, ha, hb, hc, hd, he⟩ := hprops q hq
    exact ⟨p', n, ha, hb, hc, hd, he⟩
  · intro p hdesc hproot hlname hchild
    rw [hrenfin, hp1]
    have hdepth : p.length - root.length < (initPState fs).fs.length + 1 := by
      show p.length - root.length < fs.length + 1
      have := descends_depth_le hdesc
      omega
    exact phase1Visit_dry_complete cfg hdry ((initPState fs).fs.length + 1)
      root p (initPState fs) hdesc hdepth hlname hproot hchild

theorem dry_run_no_mutation_witness :
    ((AtomicEmptyDirPurger_run
        ⟨["r"], true, false, true, ".purge.lock", constSfx⟩
        dryFS).2.trace = [] ∧
    (AtomicEmptyDirPurger_run
        ⟨["r"], true, false, true, ".purge.lock", constSfx⟩
        dryFS).2.fs = dryFS ∧
    (AtomicEmptyDirPurger_run
        ⟨["r"], true, false, true, ".purge.lock", constSfx⟩
        dryFS).1 =
      .ok ((AtomicEmptyDirPurger_run
              ⟨["r"], true, false, true, ".purge.lock", constSfx⟩
              dryFS).2.renamed,
           (AtomicEmptyDirPurger_run
              ⟨["r"], true, false, true, ".purge.lock", constSfx⟩
              dryFS).2.deleted) ∧
    (AtomicEmptyDirPurger_run
        ⟨["r"], true, false, true, ".purge.lock", constSfx⟩
        dryFS).2.deleted =
      sortDeepFirst
        (AtomicEmptyDirPurger_run
          ⟨["r"], true, false, true, ".purge.lock", constSfx⟩
          dryFS).2.renamed ∧
    (∀ q ∈ (AtomicEmptyDirPurger_run
        ⟨["r"], true, false, true, ".purge.lock", constSfx⟩
        dryFS).2.renamed,
      ∃ p n, q = withSuffix p (".purge." ++ constSfx n) ∧
        lookupFS dryFS p = some EKind.dir ∧ childNames dryFS p = [] ∧
        p ≠ ["r"] ∧ pname p ≠ ".purge.lock") ∧
    ∀ p, DescendsTo dryFS ["r"] p → p ≠ ["r"] →
      pname p ≠ ".purge.lock" → childNames dryFS p = [] →
      ∃ n, withSuffix p (".purge." ++ constSfx n) ∈
        (AtomicEmptyDirPurger_run
          ⟨["r"], true, false, true, ".purge.lock", constSfx⟩
          dryFS).2.renamed) ∧
    (AtomicEmptyDirPurger_run
        ⟨["r"], true, false, true, ".purge.lock", constSfx⟩
        dryFS).2.renamed = [["r", "a.purge.ab12cd34"]] ∧
    (AtomicEmptyDirPurger_run
        ⟨["r"], true, false, true, ".purge.lock", constSfx⟩
        dryFS).2.deleted = [["r", "a.purge.ab12cd34"]] :=
  ⟨dry_run_no_mutation ["r"] false true ".purge.lock" constSfx
    dryFS (by decide), rfl, rfl⟩

theorem syncFold_trace (r : FPath) (ps : List FPath) :
    ∀ (st : PState),
      ((ps.foldl syncPathE st).trace.all (notRenameFrom r))
        = (st.trace.all (notRenameFrom r)) := by
  induction ps with
  | nil => intro st; rfl
  | cons p ps ih =>
    intro st
    rw [List.foldl_cons, ih]
    rw [show (syncPathE st p).trace = st.trace ++ [.fsyncE p] from rfl]
    rw [List.all_append]
    simp [notRenameFrom]

theorem sync_barriers_trace (r : FPath) (cfg : PurgeCfg) (st : PState) :
    ((sync_barriers cfg st).trace.all (notRenameFrom r))
      = (st.trace.all (notRenameFrom r)) := by
  rw [sync_barriers]
  by_cases h1 : cfg.dry = true ∨ cfg.sync_enabled = false
  · rw [if_pos h1]
  · rw [if_neg h1]
    by_cases h2 : cfg.btrfs = true
    · rw [if_pos h2]
      simp only [List.all_append]
      rw [syncFold_trace]
      simp [notRenameFrom]
    · rw [if_neg h2]
      simp only [List.all_append]
      rw [syncFold_trace]
      simp [notRenameFrom]

theorem final_sync_trace (r : FPath) (cfg : PurgeCfg) (st : PState) :
    ((final_sync cfg st).trace.all (notRenameFrom r))
      = (st.trace.all (notRenameFrom r)) := by
  rw [final_sync]
  by_cases h1 : cfg.dry = true ∨ cfg.sync_enabled = false
  · rw [if_pos h1]
  · rw [if_neg h1]
    simp only [List.all_append]
    simp [notRenameFrom]

theorem release_lock_trace (r : FPath) (cfg : PurgeCfg) (st : PState) :
    ((release_lock cfg st).trace.all (notRenameFrom r))
      = (st.trace.all (notRenameFrom r)) := by
  rw [release_lock]
  by_cases h1 : cfg.dry = true
  · rw [if_pos h1]
  · rw [if_neg h1]
    by_cases h2 : (lookupFS st.fs (lockDirOf cfg)).isSome = true
    · rw [if_pos h2]
      match rmdirFS st.fs (lockDirOf cfg) with
      | some fs' =>
        simp only [List.all_append]
        simp [notRenameFrom]
      | none => rfl
    · rw [if_neg h2]

theorem phase2_foldl_trace (r : FPath) (cfg : PurgeCfg) :
    ∀ (l : List FPath) (st : PState),
      ((l.foldl (phase2Step cfg) st).trace.all (notRenameFrom r))
        = (st.trace.all (notRenameFrom r)) := by
  intro l
  induction l with
  | nil => intro st; rfl
  | cons d ds ih =>
    intro st
    rw [List.foldl_cons, ih]
    rw [phase2Step]
    by_cases h1 : cfg.dry = true
    · rw [if_pos h1]
    · rw [if_neg h1]
      match rmdirFS st.fs d with
      | some fs' =>
        simp only [List.all_append]
        simp [notRenameFrom]
      | none => rfl

theorem phase1Process_trace (cfg : PurgeCfg) (st1 : PState) (p : FPath)
    (dn fn : List String) :
    ((phase1Process cfg st1 p dn fn).trace.all (notRenameFrom cfg.root))
      = (st1.trace.all (notRenameFrom cfg.root)) := by
  rw [phase1Process]
  by_cases h1 : pname p = cfg.lock_name
  · rw [if_pos h1]
  · rw [if_neg h1]
    by_cases h2 : p = cfg.root
    · rw [if_pos h2]
    · rw [if_neg h2]
      by_cases h3 : dn = [] ∧ fn = []
      · rw [if_pos h3]
        by_cases h4 : cfg.dry = true
        · rw [if_pos h4]
        · rw [if_neg h4]
          by_cases h5 : lookupFS st1.fs p = some EKind.dir
          · rw [if_pos h5]
            by_cases h6 : childNames st1.fs p = []
            · rw [if_pos h6]
              match renameFS st1.fs p
                  (withSuffix p (".purge." ++ cfg.suffix st1.nsuf)) with
              | some fs' =>
                simp only [List.all_append]
                simp [notRenameFrom, h2]
              | none => rfl
            · rw [if_neg h6]
          · rw [if_neg h5]
      · rw [if_neg h3]

theorem phase1Visit_trace (cfg : PurgeCfg) :
    ∀ (fuel : Nat) (p : FPath) (st : PState),
      ((phase1Visit cfg fuel st p).trace.all (notRenameFrom cfg.root))
        = (st.trace.all (notRenameFrom cfg.root)) := by
  intro fuel
  induction fuel with
  | zero => intro p st; rfl
  | succ fuel ih =>
    intro p st
    rw [phase1Visit, phase1Process_trace]
    generalize p1dirnames st.fs p = ns
    induction ns generalizing st with
    | nil => rfl
    | cons n ns ihn =>
      rw [List.foldl_cons, ihn, ih]

/-- C9: (1) every path reported by an empty-directory scan over a root is,
at check time, an existing directory with zero entries (symlinks and files
alike count as occupying entries) and is never the scan root itself; and
(2) no purge run — dry or live — ever performs a rename whose source is the
scan root, so the root is never quarantined either. -/

theorem empty_dir_scan_sound_and_root_preserved :
    (∀ (fs : FS) (root : FPath),
      ((scan_empty_directories fs [root]).all
        (fun d => decide (lookupFS fs d = some EKind.dir ∧
          childNames fs d = [] ∧ d ≠ root))) = true) ∧
    (∀ (cfg : PurgeCfg) (fs : FS),
      (((AtomicEmptyDirPurger_run cfg fs).2.trace).all
        (notRenameFrom cfg.root)) = true) := by
  constructor
  · intro fs root
    rw [List.all_eq_true]
    intro d hd
    rw [scan_empty_directories] at hd
    simp only [List.foldl_cons, List.foldl_nil] at hd
    by_cases hroot : (lookupFS fs root).isSome = true
    · rw [if_pos hroot] at hd
      simp only [List.nil_append] at hd
      have aux : ∀ (qs : List FPath) (a2 : List FPath),
          (∀ x ∈ a2, (decide (lookupFS fs x = some EKind.dir ∧
            childNames fs x = [] ∧ x ≠ root)) = true) →
          ∀ x ∈ qs.foldl (fun a2 q =>
            if q = root then a2
            else if lookupFS fs q = some EKind.dir ∧ childNames fs q = [] then
              a2 ++ [q]
            else a2) a2,
          (decide (lookupFS fs x = some EKind.dir ∧
            childNames fs x = [] ∧ x ≠ root)) = true := by
        intro qs
        induction qs with
        | nil => intro a2 ha x hx; exact ha x hx
        | cons q qs ihq =>
          intro a2 ha x hx
          rw [List.foldl_cons] at hx
          by_cases hq1 : q = root
          · rw [if_pos hq1] at hx
            exact ihq a2 ha x hx
          · rw [if_neg hq1] at hx
            by_cases hq2 : lookupFS fs q = some EKind.dir ∧
                childNames fs q = []
            · rw [if_pos hq2] at hx
              refine ihq _ ?_ x hx
              intro y hy
              rcases List.mem_append.mp hy with hy1 | hy2
              · exact ha y hy1
              · simp only [List.mem_singleton] at hy2
                subst hy2
                simp [hq2.1, hq2.2, hq1]
            · rw [if_neg hq2] at hx
              exact ihq a2 ha x hx
      exact aux _ [] (by intro x hx; simp at hx) d hd
    · rw [if_neg hroot] at hd
      simp at hd
  · intro cfg fs
    rw [AtomicEmptyDirPurger_run]
    by_cases hroot : lookupFS fs cfg.root = some EKind.dir
    · rw [if_pos hroot]
      match hacq : acquire_lock cfg (initPState fs) with
      | .error e =>
        simp only
        rw [release_lock_trace]
        rfl
      | .ok st1 =>
        simp only
        rw [release_lock_trace, final_sync_trace, phase2_delete,
          phase2_foldl_trace, sync_barriers_trace, phase1_rename_empty,
          phase1Visit_trace]
        have hst1 : st1.trace.all (notRenameFrom cfg.root) = true := by
          rw [acquire_lock] at hacq
          by_cases hdry : cfg.dry = true
          · rw [if_pos hdry] at hacq
            cases hacq
            rfl
          · rw [if_neg hdry] at hacq
            match hmk : mkdirFS (initPState fs).fs (lockDirOf cfg) with
            | none => rw [hmk] at hacq; cases hacq
            | some fs' =>
              rw [hmk] at hacq
              cases hacq
              simp [initPState, notRenameFrom]
        exact hst1
    · rw [if_neg hroot]
      rfl
